import Mathlib

/-!
# Verification of the connectivity-checker agent

A shallow embedding of `connectivity-checker/app/main.py` and proofs about it.

Conventions of the embedding:
* Python strings are Lean `String`s; character-level operations work on `List Char`.
* YAML/JSON documents are values of the inductive type `YVal`; text-level
  placeholder substitution passes (which the Python applies to the serialized
  text of a document) are modelled as the same string transformation applied
  to every string of the parsed document (keys included), which agrees with
  the text-level pass whenever the substituted values contain no YAML/JSON
  metacharacters.
* The filesystem is a partial map from path strings to parsed documents; the
  process environment is a partial map from variable names to values.
* Time stamps, wall-clock latencies and process/network effects are inputs:
  each executor takes the observed exit code / response / exception data and
  the measured duration as parameters and returns the record it would emit.
-/

/-- Substring containment, Python's `needle in hay` on `List Char`:
true iff `needle` occurs contiguously in `hay` (the empty needle always occurs). -/
def listContainsSub (needle : List Char) : List Char → Bool
  | [] => needle.isEmpty
  | c :: cs => needle.isPrefixOf (c :: cs) || listContainsSub needle cs

/-- Python's `needle in hay` for strings. -/
def strContains (hay needle : String) : Bool :=
  listContainsSub needle.data hay.data

/-- Python `str.replace` on `List Char`: replace every occurrence of `pat`
by `rep`, scanning left to right, non-overlapping, never rescanning the
replacement text.  (Python's behaviour for an empty pattern — interleaving
`rep` between all characters — is not modelled; the only pattern used by the
program is the nonempty placeholder token.)  The fuel argument (any bound on
the text length) keeps the recursion structural so that the function reduces
definitionally. -/
def replCharsAux (pat rep : List Char) : Nat → List Char → List Char
  | _, [] => []
  | 0, l => l
  | fuel + 1, c :: cs =>
    if pat ≠ [] ∧ pat.isPrefixOf (c :: cs) = true then
      rep ++ replCharsAux pat rep fuel ((c :: cs).drop pat.length)
    else
      c :: replCharsAux pat rep fuel cs

/-- Python `str.replace` with the fuel instantiated by the text length
(one character is consumed per step, so the fuel never runs out). -/
def replChars (pat rep hay : List Char) : List Char :=
  replCharsAux pat rep hay.length hay

/-- Python `s.replace(pat, rep)` for strings. -/
def substStr (pat rep s : String) : String :=
  ⟨replChars pat.data rep.data s.data⟩

/-- Python `str.strip` whitespace set (ASCII part): space, tab, newline,
carriage return, vertical tab, form feed. -/
def isPySpace (c : Char) : Bool :=
  c.toNat = 32 || c.toNat = 9 || c.toNat = 10 || c.toNat = 13 ||
  c.toNat = 11 || c.toNat = 12

/-- Python `str.strip` on `List Char`. -/
def stripChars (cs : List Char) : List Char :=
  ((cs.dropWhile isPySpace).reverse.dropWhile isPySpace).reverse

/-- Python `str.strip` for strings. -/
def stripStr (s : String) : String := ⟨stripChars s.data⟩

/-- ASCII lower-casing of one character (Python `str.lower` on ASCII data). -/
def lowerChar (c : Char) : Char :=
  if 65 ≤ c.toNat ∧ c.toNat ≤ 90 then Char.ofNat (c.toNat + 32) else c

/-- ASCII upper-casing of one character (Python `str.upper` on ASCII data). -/
def upperChar (c : Char) : Char :=
  if 97 ≤ c.toNat ∧ c.toNat ≤ 122 then Char.ofNat (c.toNat - 32) else c

/-- Python `str.lower` (ASCII). -/
def lowerStr (s : String) : String := ⟨s.data.map lowerChar⟩

/-- Python `str.upper` (ASCII). -/
def upperStr (s : String) : String := ⟨s.data.map upperChar⟩

/-- Python `s.endswith(suffix)`. -/
def endsWithL (suf cs : List Char) : Bool :=
  suf.reverse.isPrefixOf cs.reverse

/-- Python `s[:-n]` (for `0 < n ≤ len s`; general form: drop the last `n`). -/
def dropRightL (n : Nat) (cs : List Char) : List Char :=
  cs.take (cs.length - n)

/-- Python `s[:n]` for strings. -/
def takeStr (n : Nat) (s : String) : String := ⟨s.data.take n⟩

/-- Decimal digits of a natural number, most significant first; the fuel
(any bound on the digit count, here `n + 1`) keeps the recursion structural
so that the function reduces definitionally. -/
def natCharsAux : Nat → Nat → List Char
  | 0, _ => []
  | fuel + 1, n =>
    if n < 10 then [Char.ofNat (48 + n)]
    else natCharsAux fuel (n / 10) ++ [Char.ofNat (48 + n % 10)]

/-- Decimal digits of a natural number, most significant first. -/
def natChars (n : Nat) : List Char := natCharsAux (n + 1) n

/-- Python `str(i)` for an integer. -/
def intToStr (n : Int) : String :=
  if n < 0 then ⟨'-' :: natChars n.natAbs⟩ else ⟨natChars n.toNat⟩

/-! ### YAML/JSON documents -/
/-- Parsed YAML/JSON documents, the values `yaml.safe_load` / `json.loads`
produce: scalars, sequences and mappings.  `float` carries YAML floats and
the latency numbers of result records (floats are modelled as rationals). -/
inductive YVal where
  | null
  | bool (b : Bool)
  | num (n : Int)
  | float (q : ℚ)
  | str (s : String)
  | arr (xs : List YVal)
  | obj (fields : List (String × YVal))
deriving Repr, Inhabited

/-- First-match association-list lookup: Python `d[k]` / `d.get(k)` on a
mapping (parsed mappings have unique keys, so first match is the match). -/
def alistGet (fs : List (String × YVal)) (k : String) : Option YVal :=
  match fs with
  | [] => none
  | (k', v) :: rest => if k' = k then some v else alistGet rest k

/-- Python truthiness of a document value (`or` chains, `if body`, `or {}`). -/
def pyTruthy : YVal → Bool
  | .null => false
  | .bool b => b
  | .num n => n != 0
  | .float q => q != 0
  | .str s => !(s == "")
  | .arr xs => !xs.isEmpty
  | .obj fs => !fs.isEmpty

/-- Python `a or b`: `a` when truthy, else `b`. -/
def pyOr (a b : YVal) : YVal := if pyTruthy a then a else b

/-- Python `str(v)` on the scalar values the program feeds to `str`.
Container and float reprs are placeholders: no claim exercises `str` on a
sequence, mapping or float, and Python's exact repr of those is not modelled. -/
def pyStr : YVal → String
  | .null => "None"
  | .bool true => "True"
  | .bool false => "False"
  | .num n => intToStr n
  | .float _ => "<float>"
  | .str s => s
  | .arr _ => "[...]"
  | .obj _ => "{...}"

/-- Python `node.get(k)` on a mapping: `None` when the key is absent
(the program only calls `.get` on parsed mappings). -/
def yGetN (v : YVal) (k : String) : YVal :=
  match v with
  | .obj fs => (alistGet fs k).getD .null
  | _ => .null

/-- Python `node.get(k, d)`: the default applies only when the key is absent. -/
def yGetD (v : YVal) (k : String) (d : YVal) : YVal :=
  match v with
  | .obj fs => (alistGet fs k).getD d
  | _ => d

mutual

/-- Structural equality test on documents (Python `==`/dict-key identity for
the parsed values; used by the profile cache membership test). -/
def yBEq : YVal → YVal → Bool
  | .null, .null => true
  | .bool a, .bool b => a == b
  | .num a, .num b => a == b
  | .float a, .float b => a == b
  | .str a, .str b => a == b
  | .arr xs, .arr ys => yBEqL xs ys
  | .obj fs, .obj gs => yBEqF fs gs
  | _, _ => false

/-- Elementwise `yBEq` on sequences. -/
def yBEqL : List YVal → List YVal → Bool
  | [], [] => true
  | x :: xs, y :: ys => yBEq x y && yBEqL xs ys
  | _, _ => false

/-- Elementwise `yBEq` on mapping fields. -/
def yBEqF : List (String × YVal) → List (String × YVal) → Bool
  | [], [] => true
  | (k, v) :: fs, (k', v') :: gs => k == k' && yBEq v v' && yBEqF fs gs
  | _, _ => false

end

/-! ### Environment expansion (the `re.sub` pass of `load_yaml`) -/
/-- Scan to the first closing brace: `takeToBrace cs = some (name, rest)` when
`cs` is `name`, a closing brace, then `rest`, with no closing brace in `name`. -/
def takeToBrace : List Char → Option (List Char × List Char)
  | [] => none
  | c :: cs =>
    if c = '}' then some ([], cs)
    else
      match takeToBrace cs with
      | some (name, rest) => some (c :: name, rest)
      | none => none

/-- The `re.sub(..., expand_var, text)` pass of `load_yaml` over raw text:
every token `${NAME}` (`NAME` nonempty and brace-free) is replaced by the
process environment's value for `NAME` when bound, and kept verbatim
otherwise; replacement values are not rescanned.  The fuel argument (any
bound on the text length) keeps the recursion structural so that the
function reduces definitionally. -/
def envExpandCharsAux (env : String → Option String) : Nat → List Char → List Char
  | _, [] => []
  | 0, l => l
  | fuel + 1, '$' :: '{' :: rest =>
    match takeToBrace rest with
    | some (name, rest') =>
      if name.isEmpty then '$' :: '{' :: envExpandCharsAux env fuel rest
      else
        match env (String.mk name) with
        | some v => v.data ++ envExpandCharsAux env fuel rest'
        | none => '$' :: '{' :: (name ++ '}' :: envExpandCharsAux env fuel rest')
    | none => '$' :: '{' :: envExpandCharsAux env fuel rest
  | fuel + 1, c :: cs => c :: envExpandCharsAux env fuel cs

/-- The `re.sub` pass with the fuel instantiated by the text length (each
step consumes at least one character, so the fuel never runs out). -/
def envExpandChars (env : String → Option String) (cs : List Char) : List Char :=
  envExpandCharsAux env cs.length cs

/-- Environment expansion of one string. -/
def envExpandStr (env : String → Option String) (s : String) : String :=
  ⟨envExpandChars env s.data⟩

/-! ### Document-wide string passes -/
mutual

/-- Apply a string transformation to every string of a document, keys of
mappings included.  This models the text-level passes of `load_yaml` and the
`json.dumps`/`replace`/`json.loads` round trip of `materialise_checks`, which
act on the serialized text and hence on every string of the document. -/
def mapStrs (f : String → String) : YVal → YVal
  | .null => .null
  | .bool b => .bool b
  | .num n => .num n
  | .float q => .float q
  | .str s => .str (f s)
  | .arr xs => .arr (mapStrsL f xs)
  | .obj fs => .obj (mapStrsF f fs)

/-- `mapStrs` over the elements of a sequence. -/
def mapStrsL (f : String → String) : List YVal → List YVal
  | [] => []
  | x :: xs => mapStrs f x :: mapStrsL f xs

/-- `mapStrs` over the fields of a mapping (keys transformed too). -/
def mapStrsF (f : String → String) : List (String × YVal) → List (String × YVal)
  | [] => []
  | (k, v) :: fs => (f k, mapStrs f v) :: mapStrsF f fs

end

/-- Structural placeholder substitution: the token for `pat` replaced by `rep`
in every string of the document. -/
def substYVal (pat rep : String) (v : YVal) : YVal :=
  mapStrs (substStr pat rep) v

/-- Structural environment expansion of a whole document. -/
def envExpandYVal (env : String → Option String) (v : YVal) : YVal :=
  mapStrs (envExpandStr env) v

/-- Every string of a document (keys included) satisfies `P`. -/
inductive YAll (P : String → Prop) : YVal → Prop where
  | null : YAll P .null
  | bool (b : Bool) : YAll P (.bool b)
  | num (n : Int) : YAll P (.num n)
  | float (q : ℚ) : YAll P (.float q)
  | str (s : String) : P s → YAll P (.str s)
  | arr (xs : List YVal) : (∀ x ∈ xs, YAll P x) → YAll P (.arr xs)
  | obj (fs : List (String × YVal)) : (∀ p ∈ fs, P p.1) →
      (∀ p ∈ fs, YAll P p.2) → YAll P (.obj fs)

/-! ### Check data classes and loader -/
/-- The `PingCheck` dataclass. -/
structure PingCheck where
  name : String
  host : String
deriving Repr, DecidableEq

/-- The `HttpCheck` dataclass.  The optional fields keep string values and
treat `None` as absent; a non-string, non-null expectation value (which
Python would carry to probe time and then fail or mis-compare on) is outside
the model — every claim configures strings or integers as appropriate. -/
structure HttpCheck where
  name : String
  method : String
  url : String
  expect_text : Option String
  expect_status : Option Int
  accept_error_substring : Option String
deriving Repr, DecidableEq

/-- The `NodeChecks` dataclass. -/
structure NodeChecks where
  node_name : String
  ping : List PingCheck
  http : List HttpCheck
deriving Repr, DecidableEq

/-- Uncaught Python exceptions of the materialisation path. -/
inductive LoadErr where
  | fileNotFound (path : String)
  | attributeError
  | typeError
deriving Repr, DecidableEq

/-- The reserved address placeholder token. -/
def addressPlaceholder : String := "${ADDRESS}"

/-- `load_yaml(path, extra_env)`: read the file at `path` (a missing file
raises `FileNotFoundError`), apply the `extra_env` replacement pass (used
with the single key `ADDRESS` for a template override), then the environment
expansion pass, parse, and replace a falsy document by the empty mapping
(`yaml.safe_load(text) or {}`).  `fs` maps a path to the parsed form of the
file's raw text; the two text passes are applied to every string. -/
def load_yaml (fs : String → Option YVal) (env : String → Option String)
    (extraEnv : Option (String × String)) (path : String) : Except LoadErr YVal :=
  match fs path with
  | none => .error (.fileNotFound path)
  | some doc =>
    let d1 := match extraEnv with
      | some kv => substYVal ("$\x7b" ++ kv.1 ++ "\x7d") kv.2 doc
      | none => doc
    let d2 := envExpandYVal env d1
    .ok (if pyTruthy d2 then d2 else .obj [])

/-- Python iteration over the value of a `ping`/`http`/`nodes` field.
A list yields its elements.  An empty string or mapping yields nothing; a
nonempty string (iterating characters) or mapping (iterating keys) yields a
non-mapping first element on which the subsequent `.get` raises
`AttributeError`, folded into the error here.  `None`, booleans and numbers
are not iterable (`TypeError`). -/
def pyIterList : YVal → Except LoadErr (List YVal)
  | .arr xs => .ok xs
  | .str s => if s = "" then .ok [] else .error .attributeError
  | .obj fs => if fs.isEmpty then .ok [] else .error .attributeError
  | .null => .error .typeError
  | .bool _ => .error .typeError
  | .num _ => .error .typeError
  | .float _ => .error .typeError

/-- Python `entry.get(k)`: `AttributeError` unless `entry` is a mapping. -/
def yGetAttr (entry : YVal) (k : String) : Except LoadErr YVal :=
  match entry with
  | .obj fs => .ok ((alistGet fs k).getD .null)
  | _ => .error .attributeError

/-- Optional string field extraction (see `HttpCheck`). -/
def asOptStr : YVal → Option String
  | .str s => some s
  | _ => none

/-- Optional integer field extraction (see `HttpCheck`). -/
def asOptInt : YVal → Option Int
  | .num n => some n
  | _ => none

/-- One `ping` profile entry:
`name = str(entry.get("name") or entry.get("host") or "ping").strip()`,
`host = str(entry.get("host") or address)`. -/
def buildPing (address : String) (entry : YVal) : Except LoadErr PingCheck := do
  let n ← yGetAttr entry "name"
  let h ← yGetAttr entry "host"
  .ok { name := stripStr (pyStr (pyOr n (pyOr h (.str "ping"))))
        host := pyStr (pyOr h (.str address)) }

/-- One `http` profile entry: entries without a URL are skipped; the URL gets
one more placeholder replacement; the method is upper-cased and defaults to
`GET`; expectation fields are carried through. -/
def buildHttp (address : String) (entry : YVal) : Except LoadErr (Option HttpCheck) := do
  let n ← yGetAttr entry "name"
  let u ← yGetAttr entry "url"
  let name := stripStr (pyStr (pyOr n (pyOr u (.str "http"))))
  let url := pyStr (pyOr u (.str ""))
  if url = "" then
    .ok none
  else do
    let m ← yGetAttr entry "method"
    let et ← yGetAttr entry "expect_text"
    let es ← yGetAttr entry "expect_status"
    let aes ← yGetAttr entry "accept_error_substring"
    .ok (some
      { name := name
        method := upperStr (pyStr (pyOr m (.str "GET")))
        url := substStr addressPlaceholder address url
        expect_text := asOptStr et
        expect_status := asOptInt es
        accept_error_substring := asOptStr aes })

/-- The `ping` loop: build each entry in order, aborting on the first
uncaught error. -/
def buildPings (address : String) : List YVal → Except LoadErr (List PingCheck)
  | [] => .ok []
  | e :: rest => do
    let pc ← buildPing address e
    let tail ← buildPings address rest
    .ok (pc :: tail)

/-- The `http` loop: build each entry in order (URL-less entries skipped),
aborting on the first uncaught error. -/
def buildHttps (address : String) : List YVal → Except LoadErr (List HttpCheck)
  | [] => .ok []
  | e :: rest => do
    let ohc ← buildHttp address e
    let tail ← buildHttps address rest
    .ok (ohc.toList ++ tail)

/-- Extract the two probe lists of a node-bound profile document. -/
def buildNodeChecks (node_name address : String) (profile_data : YVal) :
    Except LoadErr NodeChecks := do
  let pingRaw ← (match profile_data with
    | .obj fsv => Except.ok ((alistGet fsv "ping").getD (.arr []))
    | _ => Except.error LoadErr.attributeError)
  let pingEntries ← pyIterList pingRaw
  let ping ← buildPings address pingEntries
  let httpRaw ← (match profile_data with
    | .obj fsv => Except.ok ((alistGet fsv "http").getD (.arr []))
    | _ => Except.error LoadErr.attributeError)
  let httpEntries ← pyIterList httpRaw
  let http ← buildHttps address httpEntries
  .ok ⟨node_name, ping, http⟩

/-- Lookup in the profile cache, keyed by the raw `profile` field value
(Python dict membership on the parsed value). -/
def cacheLookup (cache : List (YVal × YVal)) (k : YVal) : Option YVal :=
  match cache with
  | [] => none
  | (k', v) :: rest => if yBEq k' k then some v else cacheLookup rest k

/-- The profile path `profiles_dir / f"{profile_name}.yml"`. -/
def profilePath (profiles_dir : String) (profile_name : YVal) : String :=
  profiles_dir ++ "/" ++ pyStr profile_name ++ ".yml"

/-- The named-profile branch of the loop: on a cache miss read the profile
file (`FileNotFoundError` propagates) and cache the parsed structure; then
produce the per-node copy with every occurrence of the address placeholder
replaced by the node's address (the `json.dumps` / `.replace` / `json.loads`
round trip, modelled structurally).  Returns the node-bound document, the
updated cache and the file reads performed. -/
def namedProfileData (fs : String → Option YVal) (env : String → Option String)
    (profiles_dir : String) (cache : List (YVal × YVal)) (profile_name : YVal)
    (address : String) :
    Except LoadErr (YVal × List (YVal × YVal) × List String) :=
  match cacheLookup cache profile_name with
  | some raw => .ok (substYVal addressPlaceholder address raw, cache, [])
  | none =>
    match load_yaml fs env none (profilePath profiles_dir profile_name) with
    | .error e => .error e
    | .ok raw =>
      .ok (substYVal addressPlaceholder address raw,
           cache ++ [(profile_name, raw)], [profilePath profiles_dir profile_name])

/-- The head of one loop iteration: resolve the node's name (name/id, default
`"node"`), address (address/host, default empty) and profile field (default
`"default"`); `none` signals the skip of an entry whose stripped name or
address is empty. -/
def nodeParams (node : YVal) : Except LoadErr (Option (String × String × YVal)) := do
  let nameV ← yGetAttr node "name"
  let idV ← yGetAttr node "id"
  let addrV ← yGetAttr node "address"
  let hostV ← yGetAttr node "host"
  let node_name := stripStr (pyStr (pyOr nameV (pyOr idV (.str "node"))))
  let address := stripStr (pyStr (pyOr addrV (pyOr hostV (.str ""))))
  let profile_name := yGetD node "profile" (.str "default")
  if node_name = "" ∨ address = "" then
    .ok none
  else
    .ok (some (node_name, address, profile_name))

/-- One iteration of the `for node in nodes` loop of `materialise_checks`:
the produced `NodeChecks` (`none` when the node is skipped), the updated
profile cache and the profile/template files read during the iteration. -/
def processNode (fs : String → Option YVal) (env : String → Option String)
    (profiles_dir : String) (template_override : Option String)
    (cache : List (YVal × YVal)) (node : YVal) :
    Except LoadErr (Option NodeChecks × List (YVal × YVal) × List String) := do
  match ← nodeParams node with
  | none => .ok (none, cache, [])
  | some (node_name, address, profile_name) =>
    match template_override with
    | some t =>
      if (fs t).isSome then do
        let profile_data ← load_yaml fs env (some ("ADDRESS", address)) t
        let nc ← buildNodeChecks node_name address profile_data
        .ok (some nc, cache, [t])
      else do
        let (profile_data, cache', reads) ←
          namedProfileData fs env profiles_dir cache profile_name address
        let nc ← buildNodeChecks node_name address profile_data
        .ok (some nc, cache', reads)
    | none => do
      let (profile_data, cache', reads) ←
        namedProfileData fs env profiles_dir cache profile_name address
      let nc ← buildNodeChecks node_name address profile_data
      .ok (some nc, cache', reads)

/-- The loop of `materialise_checks` over the inventory's nodes, threading
the profile cache and accumulating produced checks and file reads. -/
def matLoop (fs : String → Option YVal) (env : String → Option String)
    (profiles_dir : String) (template_override : Option String) :
    List YVal → List (YVal × YVal) → List String → List NodeChecks →
    Except LoadErr (List NodeChecks × List String × List (YVal × YVal))
  | [], cache, reads, acc => .ok (acc, reads, cache)
  | node :: rest, cache, reads, acc =>
    match processNode fs env profiles_dir template_override cache node with
    | .error e => .error e
    | .ok (onc, cache', newReads) =>
      matLoop fs env profiles_dir template_override rest cache'
        (reads ++ newReads) (acc ++ onc.toList)

/-- The outcome of running `materialise_checks` to completion: produced
checks in inventory order, profile/template file reads in order, and the
final profile cache. -/
structure MatResult where
  checks : List NodeChecks
  reads : List String
  cache : List (YVal × YVal)
deriving Repr

/-- `materialise_checks` with its consumer (`main`) running the generator to
completion: load the inventory, iterate its `nodes` list, process each node.
An uncaught exception — a missing profile file, an ill-typed inventory —
aborts materialisation as it aborts the Python process.  (The Python
signature also receives `config_dir`, which its body never uses.) -/
def materialise_checks (fs : String → Option YVal) (env : String → Option String)
    (inventory_path profiles_dir : String) (template_override : Option String) :
    Except LoadErr MatResult := do
  let inventory ← load_yaml fs env none inventory_path
  let nodesV ← (match inventory with
    | .obj fsv => Except.ok ((alistGet fsv "nodes").getD (.arr []))
    | _ => Except.error LoadErr.attributeError)
  let nodes ← pyIterList nodesV
  match matLoop fs env profiles_dir template_override nodes [] [] [] with
  | .error e => .error e
  | .ok (checks, reads, cache) => .ok ⟨checks, reads, cache⟩

/-- Cache-free per-node materialisation (specification form): what one node
produces when its profile is read directly from disk, i.e. `processNode`
with an empty cache.  Used to state that the profile cache is semantically
transparent. -/
def nodeFresh (fs : String → Option YVal) (env : String → Option String)
    (profiles_dir : String) (node : YVal) : Except LoadErr (Option NodeChecks) :=
  (processNode fs env profiles_dir none [] node).map (fun r => r.1)

/-! ### Probe executors and result emitter -/
/-- `run_ping`: the record built from the observed process outcome.  The
subprocess invocation (ping command, `-c count -n host` arguments) is an
environment effect; the executor's observable output is the record built from
the exit code, the captured (decoded, stripped) output streams, the timestamp
and the measured duration, which the embedding takes as inputs. -/
def run_ping (check : PingCheck) (ts : String) (returncode : Int)
    (stdout stderr : String) (duration : ℚ) : List (String × YVal) :=
  let record : List (String × YVal) :=
    [("ts", .str ts), ("kind", .str "ping"), ("name", .str check.name),
     ("host", .str check.host),
     ("status", .str (if returncode = 0 then "ok" else "error")),
     ("latency_s", .float duration), ("return_code", .num returncode),
     ("stdout", .str (stripStr stdout)), ("stderr", .str (stripStr stderr))]
  if returncode ≠ 0 then record ++ [("error", .str "ping_failed")] else record

/-- The completed-response branch of `run_http`: classify the response
against the optional expectations and build the record. -/
def http_response_record (check : HttpCheck) (ts : String) (status_code : Int)
    (body : String) (duration : ℚ) : List (String × YVal) :=
  let s1 : Bool × Option String :=
    match check.expect_status with
    | some es =>
      if status_code ≠ es then
        (false, some ("unexpected_status:" ++ intToStr status_code))
      else (true, none)
    | none => (true, none)
  let s2 : Bool × Option String :=
    if s1.1 then
      match check.expect_text with
      | some et => if strContains body et = false then (false, some "unexpected_body") else s1
      | none => s1
    else s1
  let record : List (String × YVal) :=
    [("ts", .str ts), ("kind", .str "http"), ("name", .str check.name),
     ("url", .str check.url),
     ("status", .str (if s2.1 then "ok" else "error")),
     ("latency_s", .float duration), ("http_status", .num status_code),
     ("body_sample", .str (if body ≠ "" then takeStr 512 body else ""))]
  if s2.1 = false then record ++ [("error", .str (s2.2.getD "check_failed"))] else record

/-- The request-failure branch of `run_http`: either the accepted-error
record (the accepted-substring field is truthy and occurs in `str(exc)`) or
an error record tagged with the exception's class name and full description,
plus whatever status code and body were obtained before the failure (both
`None` whenever the request itself raised). -/
def http_exception_record (check : HttpCheck) (ts : String) (excType detail : String)
    (status_code : Option Int) (body : Option String) (duration : ℚ) :
    List (String × YVal) :=
  if (match check.accept_error_substring with
      | some s => !(s == "") && strContains detail s
      | none => false) then
    [("ts", .str ts), ("kind", .str "http"), ("name", .str check.name),
     ("url", .str check.url), ("status", .str "ok"), ("latency_s", .float duration),
     ("note", .str "accepted_error"), ("accepted_error", .str detail)]
  else
    [("ts", .str ts), ("kind", .str "http"), ("name", .str check.name),
     ("url", .str check.url), ("status", .str "error"), ("latency_s", .float duration),
     ("error", .str ("exception:" ++ excType)), ("detail", .str detail),
     ("http_status", match status_code with | some c => .num c | none => .null),
     ("body_sample", .str (match body with
        | some b => if b ≠ "" then takeStr 512 b else ""
        | none => ""))]

/-- Python dict item assignment `d[k] = v`: update in place when the key is
present, append otherwise. -/
def dictSet (d : List (String × YVal)) (k : String) (v : YVal) : List (String × YVal) :=
  if (alistGet d k).isSome then
    d.map (fun p => if p.1 = k then (k, v) else p)
  else d ++ [(k, v)]

/-- `log_record`: copy the record, add the run-identity fields and the local
hostname (an environment input), and emit; the emitted JSON line is exactly
the enriched record. -/
def log_record (record : List (String × YVal))
    (instance_id instance_role node_name host_name : String) : List (String × YVal) :=
  dictSet (dictSet (dictSet (dictSet record
    "instance_id" (.str instance_id))
    "instance_role" (.str instance_role))
    "node" (.str node_name))
    "host" (.str host_name)

/-! ### Duration parsing -/
/-- The characters Python's `float()` accepts in finite decimal literals:
digits, the signs, the decimal point and the exponent marker `e`.
`inf`/`nan`, digit-group underscores and surrounding whitespace are outside
the model. -/
def isFloatChar (c : Char) : Bool :=
  (48 ≤ c.toNat && c.toNat ≤ 57) || c.toNat = 43 || c.toNat = 45 ||
  c.toNat = 46 || c.toNat = 101

/-- Value of a digit string. -/
def digitsToNat (cs : List Char) : Nat :=
  cs.foldl (fun a c => a * 10 + (c.toNat - 48)) 0

/-- A nonempty all-digit string. -/
def allDigits (cs : List Char) : Bool :=
  !cs.isEmpty && cs.all (fun c => 48 ≤ c.toNat && c.toNat ≤ 57)

/-- Split at the first occurrence of a marker character. -/
def breakAtChar (t : Char) : List Char → List Char × Option (List Char)
  | [] => ([], none)
  | c :: cs =>
    if c = t then ([], some cs)
    else
      let r := breakAtChar t cs
      (c :: r.1, r.2)

/-- The mantissa forms `float()` accepts: `d+`, `d+.`, `.d+`, `d+.d+`. -/
def parseMantissa (cs : List Char) : Option ℚ :=
  match breakAtChar '.' cs with
  | (ip, none) => if allDigits ip then some (digitsToNat ip : ℚ) else none
  | (ip, some fp) =>
    if (!ip.isEmpty || !fp.isEmpty)
        && ip.all (fun c => 48 ≤ c.toNat && c.toNat ≤ 57)
        && fp.all (fun c => 48 ≤ c.toNat && c.toNat ≤ 57) then
      some ((digitsToNat ip : ℚ) + (digitsToNat fp : ℚ) / (10 : ℚ) ^ fp.length)
    else none

/-- An optionally signed digit exponent. -/
def parseExponent (cs : List Char) : Option ℤ :=
  match cs with
  | '+' :: rest => if allDigits rest then some (digitsToNat rest : ℤ) else none
  | '-' :: rest => if allDigits rest then some (-(digitsToNat rest : ℤ)) else none
  | _ => if allDigits cs then some (digitsToNat cs : ℤ) else none

/-- An unsigned decimal literal with optional exponent part. -/
def parseUnsigned (cs : List Char) : Option ℚ :=
  match breakAtChar 'e' cs with
  | (m, none) => parseMantissa m
  | (m, some ex) => do
    let mv ← parseMantissa m
    let ev ← parseExponent ex
    pure (mv * (10 : ℚ) ^ ev)

/-- Python `float(s)` on finite decimal literals, valued in the rationals. -/
def pyFloat (s : String) : Option ℚ :=
  if s.data.all isFloatChar then
    match s.data with
    | '+' :: rest => parseUnsigned rest
    | '-' :: rest => (parseUnsigned rest).map (fun q => -q)
    | cs => parseUnsigned cs
  else none

/-- `parse_duration(text, default)`: falsy (empty) text gives the default;
otherwise strip and lower the text, dispatch on the `ms`/`s`/`m`/`h` suffix,
and convert the numeric prefix; a `ValueError` from `float` yields the
default. -/
def parse_duration (text : String) (default : ℚ) : ℚ :=
  if text = "" then default
  else if endsWithL ['m', 's'] (lowerStr (stripStr text)).data then
    match pyFloat ⟨dropRightL 2 (lowerStr (stripStr text)).data⟩ with
    | some x => x / 1000
    | none => default
  else if endsWithL ['s'] (lowerStr (stripStr text)).data then
    match pyFloat ⟨dropRightL 1 (lowerStr (stripStr text)).data⟩ with
    | some x => x
    | none => default
  else if endsWithL ['m'] (lowerStr (stripStr text)).data then
    match pyFloat ⟨dropRightL 1 (lowerStr (stripStr text)).data⟩ with
    | some x => x * 60
    | none => default
  else if endsWithL ['h'] (lowerStr (stripStr text)).data then
    match pyFloat ⟨dropRightL 1 (lowerStr (stripStr text)).data⟩ with
    | some x => x * 3600
    | none => default
  else
    match pyFloat (lowerStr (stripStr text)) with
    | some x => x
    | none => default

/-- The substring `parse_duration` submits to `float` after suffix dispatch. -/
def durationNumericPart (value : List Char) : List Char :=
  if endsWithL ['m', 's'] value then dropRightL 2 value
  else if endsWithL ['s'] value then dropRightL 1 value
  else if endsWithL ['m'] value then dropRightL 1 value
  else if endsWithL ['h'] value then dropRightL 1 value
  else value

/-- Cache-free specification of the materialisation loop: every node is
materialised by reading its profile directly from disk. -/
def matSpec (fs : String → Option YVal) (env : String → Option String)
    (pdir : String) : List YVal → Except LoadErr (List NodeChecks)
  | [] => .ok []
  | node :: rest => do
    let onc ← nodeFresh fs env pdir node
    let tail ← matSpec fs env pdir rest
    .ok (onc.toList ++ tail)

/-- The inventory's node list, as `materialise_checks` computes it before
its loop. -/
def inventoryNodes (fs : String → Option YVal) (env : String → Option String)
    (inventory_path : String) : Except LoadErr (List YVal) := do
  let inventory ← load_yaml fs env none inventory_path
  let nodesV ← (match inventory with
    | .obj fsv => Except.ok ((alistGet fsv "nodes").getD (.arr []))
    | _ => Except.error LoadErr.attributeError)
  pyIterList nodesV

/-! ### Placeholder totality: substitution leaves no residual token -/
/-- A string free of the address placeholder token. -/
def patFree (s : String) : Prop := strContains s addressPlaceholder = false

/-- Every probe string field a `NodeChecks` hands to an executor — ping name
and host, HTTP name, URL and optional expectation texts — is free of the
address placeholder.  (The HTTP method is excluded: upper-casing is applied
to it after substitution and is not occurrence-preserving.) -/
def placeholderFreeChecks (nc : NodeChecks) : Prop :=
  (∀ pc ∈ nc.ping, patFree pc.name ∧ patFree pc.host)
  ∧ (∀ hc ∈ nc.http, patFree hc.name ∧ patFree hc.url
      ∧ (∀ t, hc.expect_text = some t → patFree t)
      ∧ (∀ t, hc.accept_error_substring = some t → patFree t))

/-- The configuration used to exercise the placeholder pipeline: one node
(name `edge-1`, address `10.0.0.5`, implicit profile `default`) and one
profile with a placeholder ping host and a placeholder HTTP URL. -/
def fsC2 : String → Option YVal := fun p =>
  if p = "cfg/nodes.yml" then
    some (.obj [("nodes", .arr [.obj
      [("name", .str "edge-1"), ("address", .str "10.0.0.5")]])])
  else if p = "cfg/profiles/default.yml" then
    some (.obj
      [("ping", .arr [.obj [("name", .str "gateway"), ("host", .str "${ADDRESS}")]]),
       ("http", .arr [.obj [("name", .str "health"),
         ("url", .str "http://${ADDRESS}/health"), ("expect_status", .num 200)]])])
  else none

/-- A process environment that binds `ADDRESS` (to an address that is not any
node's address). -/
def envPoison : String → Option String := fun v =>
  if v = "ADDRESS" then some "10.9.9.9" else none

/-! ## Theorems -/

/-! ### Lemmas about substring containment and replacement -/
theorem listContainsSub_nil (needle : List Char) :
    listContainsSub needle [] = needle.isEmpty := rfl

/-- An occurrence of a nonempty needle puts the needle's head among the hay. -/
theorem head_mem_of_contains {p : Char} {ps hay : List Char}
    (h : listContainsSub (p :: ps) hay = true) : p ∈ hay := by
  induction hay with
  | nil => simp [listContainsSub] at h
  | cons c cs ih =>
    simp only [listContainsSub, Bool.or_eq_true] at h
    rcases h with h | h
    · rw [List.isPrefixOf_iff_prefix] at h
      have := h.head_eq (by simp)
      simp at this
      simp [this]
    · exact List.mem_cons_of_mem _ (ih h)

/-- If the head of a nonempty needle does not occur in `a`, an occurrence in
`a ++ b` is an occurrence in `b`. -/
theorem contains_append_right {p : Char} {ps a b : List Char}
    (hhd : p ∉ a) (h : listContainsSub (p :: ps) (a ++ b) = true) :
    listContainsSub (p :: ps) b = true := by
  induction a with
  | nil => simpa using h
  | cons c cs ih =>
    simp only [List.cons_append, listContainsSub, Bool.or_eq_true] at h
    rcases h with h | h
    · rw [List.isPrefixOf_iff_prefix] at h
      have := h.head_eq (by simp)
      simp at this
      simp [this] at hhd
    · exact ih (fun hm => hhd (List.mem_cons_of_mem _ hm)) h

/-- A prefix of a replacement result whose characters avoid the replacement
text is a prefix of the original text (fuel form). -/
theorem prefix_replAux_of_avoids (pat rep : List Char) (hrep : rep ≠ []) :
    ∀ (fuel : Nat) (v : List Char), v ≠ [] → (∀ c ∈ rep, c ∉ v) →
    ∀ hay : List Char, hay.length ≤ fuel →
    v.isPrefixOf (replCharsAux pat rep fuel hay) = true → v.isPrefixOf hay = true := by
  intro fuel
  induction fuel with
  | zero =>
    intro v hv hdisj hay hlen hpre
    have : hay = [] := List.length_eq_zero.mp (Nat.le_zero.mp hlen)
    subst this
    rw [replCharsAux] at hpre
    rw [List.isPrefixOf_iff_prefix, List.prefix_nil] at hpre
    exact absurd hpre hv
  | succ fuel ih =>
    intro v hv hdisj hay hlen hpre
    match hay with
    | [] =>
      rw [replCharsAux] at hpre
      rw [List.isPrefixOf_iff_prefix, List.prefix_nil] at hpre
      exact absurd hpre hv
    | c :: cs =>
      by_cases h : pat ≠ [] ∧ pat.isPrefixOf (c :: cs) = true
      · rw [replCharsAux, if_pos h] at hpre
        rw [List.isPrefixOf_iff_prefix] at hpre
        obtain ⟨p, ps, rfl⟩ := List.exists_cons_of_ne_nil hv
        obtain ⟨r, rs, rfl⟩ := List.exists_cons_of_ne_nil hrep
        have := hpre.head_eq (by simp)
        simp at this
        exact absurd (hdisj r (by simp)) (by simp [this])
      · rw [replCharsAux, if_neg h] at hpre
        obtain ⟨p, ps, rfl⟩ := List.exists_cons_of_ne_nil hv
        rw [List.isPrefixOf_iff_prefix] at hpre ⊢
        rw [List.cons_prefix_cons] at hpre
        obtain ⟨rfl, htail⟩ := hpre
        rw [List.cons_prefix_cons]
        refine ⟨rfl, ?_⟩
        rcases eq_or_ne ps [] with rfl | hps'
        · simp
        · have htail' : ps.isPrefixOf (replCharsAux pat rep fuel cs) = true := by
            rw [List.isPrefixOf_iff_prefix]; exact htail
          have hlen' : cs.length ≤ fuel := by
            simp only [List.length_cons] at hlen
            omega
          have := ih ps hps'
            (fun c hc hm => hdisj c hc (List.mem_cons_of_mem _ hm)) cs hlen' htail'
          rw [List.isPrefixOf_iff_prefix] at this
          exact this

/-- A prefix of a replacement result whose characters avoid the replacement
text is a prefix of the original text. -/
theorem prefix_repl_of_avoids (pat rep : List Char) (hrep : rep ≠ [])
    (v : List Char) (hv : v ≠ []) (hdisj : ∀ c ∈ rep, c ∉ v)
    (hay : List Char) (hpre : v.isPrefixOf (replChars pat rep hay) = true) :
    v.isPrefixOf hay = true :=
  prefix_replAux_of_avoids pat rep hrep hay.length v hv hdisj hay (Nat.le_refl _) hpre

/-- After replacement the pattern no longer occurs in the output, provided
the replacement text is nonempty and shares no character with the pattern
(fuel form). -/
theorem replAux_no_occurrence (pat rep : List Char) (hpat : pat ≠ []) (hrep : rep ≠ [])
    (hdisj : ∀ c ∈ rep, c ∉ pat) :
    ∀ (fuel : Nat) (hay : List Char), hay.length ≤ fuel →
    listContainsSub pat (replCharsAux pat rep fuel hay) = false := by
  obtain ⟨p, ps, hpp⟩ := List.exists_cons_of_ne_nil hpat
  intro fuel
  induction fuel with
  | zero =>
    intro hay hlen
    have : hay = [] := List.length_eq_zero.mp (Nat.le_zero.mp hlen)
    subst this
    rw [replCharsAux]
    simp [listContainsSub, List.isEmpty_iff, hpat]
  | succ fuel ih =>
    intro hay hlen
    match hay with
    | [] =>
      rw [replCharsAux]
      simp [listContainsSub, List.isEmpty_iff, hpat]
    | c :: cs =>
      have hlen' : cs.length ≤ fuel := by
        simp only [List.length_cons] at hlen
        omega
      by_cases h : pat ≠ [] ∧ pat.isPrefixOf (c :: cs) = true
      · rw [replCharsAux, if_pos h]
        by_contra hcon
        rw [Bool.not_eq_false, hpp] at hcon
        have hp_rep : p ∉ rep := fun hm => hdisj p hm (by rw [hpp]; simp)
        have h2 := contains_append_right hp_rep hcon
        rw [← hpp] at h2
        have hdlen : ((c :: cs).drop pat.length).length ≤ fuel := by
          have hp1 : 0 < pat.length := List.length_pos.mpr h.1
          simp only [List.length_drop, List.length_cons]
          omega
        have hrec := ih ((c :: cs).drop pat.length) hdlen
        rw [hrec] at h2
        exact Bool.false_ne_true h2
      · rw [replCharsAux, if_neg h]
        by_contra hcon
        rw [Bool.not_eq_false] at hcon
        simp only [listContainsSub, Bool.or_eq_true] at hcon
        rcases hcon with hcon | hcon
        · rw [hpp, List.isPrefixOf_iff_prefix, List.cons_prefix_cons] at hcon
          obtain ⟨rfl, htail⟩ := hcon
          rcases eq_or_ne ps [] with rfl | hps'
          · exact h ⟨hpat, by rw [hpp]; simp [List.isPrefixOf_iff_prefix]⟩
          · rw [← hpp] at htail
            have htail' : ps.isPrefixOf (replCharsAux pat rep fuel cs) = true := by
              rw [List.isPrefixOf_iff_prefix]; exact htail
            have hps_cs := prefix_replAux_of_avoids pat rep hrep fuel ps hps'
              (fun ch hc hm => hdisj ch hc (by rw [hpp]; exact List.mem_cons_of_mem _ hm))
              cs hlen' htail'
            refine h ⟨hpat, ?_⟩
            rw [List.isPrefixOf_iff_prefix] at hps_cs ⊢
            rw [hpp, List.cons_prefix_cons]
            exact ⟨rfl, hps_cs⟩
        · have hrec := ih cs hlen'
          rw [hrec] at hcon
          exact Bool.false_ne_true hcon

/-- After replacement the pattern no longer occurs in the output, provided
the replacement text is nonempty and shares no character with the pattern. -/
theorem repl_no_occurrence (pat rep : List Char) (hpat : pat ≠ []) (hrep : rep ≠ [])
    (hdisj : ∀ c ∈ rep, c ∉ pat) (hay : List Char) :
    listContainsSub pat (replChars pat rep hay) = false :=
  replAux_no_occurrence pat rep hpat hrep hdisj hay.length hay (Nat.le_refl _)

/-- Replacement is the identity when the pattern does not occur (fuel form). -/
theorem replCharsAux_eq_of_not_contains (pat rep : List Char) :
    ∀ (fuel : Nat) (hay : List Char), listContainsSub pat hay = false →
    replCharsAux pat rep fuel hay = hay := by
  intro fuel
  induction fuel with
  | zero =>
    intro hay hno
    match hay with
    | [] => rw [replCharsAux]
    | c :: cs =>
      rw [replCharsAux]
      simp
  | succ fuel ih =>
    intro hay hno
    match hay with
    | [] => rw [replCharsAux]
    | c :: cs =>
      simp only [listContainsSub, Bool.or_eq_false_iff] at hno
      rw [replCharsAux,
        if_neg (fun hc => by rw [hno.1] at hc; exact Bool.false_ne_true hc.2)]
      rw [ih cs hno.2]

/-- Replacement is the identity when the pattern does not occur. -/
theorem replChars_eq_of_not_contains (pat rep hay : List Char)
    (h : listContainsSub pat hay = false) : replChars pat rep hay = hay :=
  replCharsAux_eq_of_not_contains pat rep hay.length hay h

/-- `s ≠ ""` exactly when its character list is nonempty. -/
theorem str_ne_empty_iff (s : String) : s ≠ "" ↔ s.data ≠ [] := by
  cases s with
  | mk data =>
    constructor
    · intro h hd
      subst hd
      exact h rfl
    · intro h he
      exact h (congrArg String.data he)

/-- `substStr` leaves no occurrence of the pattern when the replacement is
nonempty and shares no character with the pattern. -/
theorem substStr_no_residual (pat rep s : String) (hpat : pat ≠ "") (hrep : rep ≠ "")
    (hdisj : ∀ c ∈ rep.data, c ∉ pat.data) :
    strContains (substStr pat rep s) pat = false := by
  unfold strContains substStr
  exact repl_no_occurrence pat.data rep.data ((str_ne_empty_iff pat).mp hpat)
    ((str_ne_empty_iff rep).mp hrep) hdisj s.data

theorem takeToBrace_length {cs name rest : List Char}
    (h : takeToBrace cs = some (name, rest)) : rest.length < cs.length := by
  induction cs generalizing name with
  | nil => simp [takeToBrace] at h
  | cons c cs ih =>
    rw [takeToBrace] at h
    by_cases hc : c = '}'
    · rw [if_pos hc] at h
      simp only [Option.some.injEq, Prod.mk.injEq] at h
      rw [← h.2]
      simp
    · rw [if_neg hc] at h
      match hrec : takeToBrace cs with
      | some (name', rest') =>
        rw [hrec] at h
        simp only [Option.some.injEq, Prod.mk.injEq] at h
        have := @ih name' (by rw [hrec, h.2])
        simp only [List.length_cons]
        omega
      | none => rw [hrec] at h; exact absurd h (by simp)

theorem takeToBrace_eq {cs name rest : List Char}
    (h : takeToBrace cs = some (name, rest)) : cs = name ++ '}' :: rest := by
  induction cs generalizing name with
  | nil => simp [takeToBrace] at h
  | cons c cs ih =>
    rw [takeToBrace] at h
    by_cases hc : c = '}'
    · rw [if_pos hc] at h
      simp only [Option.some.injEq, Prod.mk.injEq] at h
      rw [← h.1, ← h.2, hc]
      simp
    · rw [if_neg hc] at h
      match hrec : takeToBrace cs with
      | some (name', rest') =>
        rw [hrec] at h
        simp only [Option.some.injEq, Prod.mk.injEq] at h
        obtain ⟨h1, h2⟩ := h
        rw [← h1]
        simp only [List.cons_append, List.cons.injEq, true_and]
        exact ih (by rw [hrec, h2])
      | none => rw [hrec] at h; exact absurd h (by simp)

/-- With an empty environment the expansion pass keeps the text verbatim
(fuel form). -/
theorem envExpandCharsAux_none :
    ∀ (fuel : Nat) (cs : List Char), cs.length ≤ fuel →
    envExpandCharsAux (fun _ => none) fuel cs = cs := by
  intro fuel cs
  induction fuel, cs using envExpandCharsAux.induct (fun _ => none) with
  | case1 => exact fun _ => by rw [envExpandCharsAux]
  | case2 l h => exact fun _ => by rw [envExpandCharsAux]; exact h
  | case3 fuel rest name rest' h hn ih =>
    intro hlen
    have hlen2 : rest.length ≤ fuel := by
      simp only [List.length_cons] at hlen
      omega
    rw [envExpandCharsAux, h]
    simp only [if_pos hn, ih hlen2]
  | case4 fuel rest name rest' h hn v hv ih =>
    exact absurd hv (by simp)
  | case5 fuel rest name rest' h hn hv ih =>
    intro hlen
    have hlen2 : rest.length ≤ fuel := by
      simp only [List.length_cons] at hlen
      omega
    have hlen3 : rest'.length ≤ fuel :=
      Nat.le_trans (Nat.le_of_lt (takeToBrace_length h)) hlen2
    rw [envExpandCharsAux, h]
    simp only [if_neg hn]
    rw [ih hlen3, ← takeToBrace_eq h]
  | case6 fuel rest h ih =>
    intro hlen
    have hlen2 : rest.length ≤ fuel := by
      simp only [List.length_cons] at hlen
      omega
    rw [envExpandCharsAux, h, ih hlen2]
  | case7 fuel c cs hne ih =>
    intro hlen
    have hlen2 : cs.length ≤ fuel := by
      simp only [List.length_cons] at hlen
      omega
    rw [envExpandCharsAux, ih hlen2]
    exact hne

/-- With an empty environment the expansion pass keeps the text verbatim. -/
theorem envExpandChars_none (cs : List Char) :
    envExpandChars (fun _ => none) cs = cs :=
  envExpandCharsAux_none cs.length cs (Nat.le_refl _)

/-- `mapStrsL` is mapping `mapStrs`. -/
theorem mapStrsL_eq_map (f : String → String) (xs : List YVal) :
    mapStrsL f xs = xs.map (mapStrs f) := by
  induction xs with
  | nil => rw [mapStrsL, List.map_nil]
  | cons x xs ih => rw [mapStrsL, List.map_cons, ih]

/-- `mapStrsF` is mapping over the fields. -/
theorem mapStrsF_eq_map (f : String → String) (fs : List (String × YVal)) :
    mapStrsF f fs = fs.map (fun p => (f p.1, mapStrs f p.2)) := by
  induction fs with
  | nil => rw [mapStrsF, List.map_nil]
  | cons p fs ih =>
    obtain ⟨k, v⟩ := p
    rw [mapStrsF, List.map_cons, ih]

/-- If `f` forces `P` on its output, every string of `mapStrs f v` satisfies `P`. -/
theorem yall_mapStrs (P : String → Prop) (f : String → String)
    (hf : ∀ s, P (f s)) (v : YVal) : YAll P (mapStrs f v) := by
  match v with
  | .null => rw [mapStrs]; exact .null
  | .bool b => rw [mapStrs]; exact .bool b
  | .num n => rw [mapStrs]; exact .num n
  | .float q => rw [mapStrs]; exact .float q
  | .str s => rw [mapStrs]; exact .str (f s) (hf s)
  | .arr xs =>
    rw [mapStrs, mapStrsL_eq_map]
    refine .arr _ ?_
    intro x hx
    rw [List.mem_map] at hx
    obtain ⟨y, hy, rfl⟩ := hx
    exact yall_mapStrs P f hf y
  | .obj fs =>
    rw [mapStrs, mapStrsF_eq_map]
    refine .obj _ ?_ ?_
    · intro p hp
      rw [List.mem_map] at hp
      obtain ⟨q, hq, rfl⟩ := hp
      exact hf q.1
    · intro p hp
      rw [List.mem_map] at hp
      obtain ⟨q, hq, rfl⟩ := hp
      exact yall_mapStrs P f hf q.2
termination_by sizeOf v
decreasing_by
  · have := List.sizeOf_lt_of_mem hy
    simp only [YVal.arr.sizeOf_spec]
    omega
  · have h1 := List.sizeOf_lt_of_mem hq
    obtain ⟨a, b⟩ := q
    simp only [YVal.obj.sizeOf_spec, Prod.mk.sizeOf_spec] at h1 ⊢
    omega

/-- Values found by lookup in a mapping whose values all satisfy `YAll P`. -/
theorem yall_alistGet {P : String → Prop} {fs : List (String × YVal)}
    {k : String} {w : YVal} (hfs : ∀ p ∈ fs, YAll P p.2)
    (h : alistGet fs k = some w) : YAll P w := by
  induction fs with
  | nil => simp [alistGet] at h
  | cons p rest ih =>
    obtain ⟨k', v'⟩ := p
    rw [alistGet] at h
    by_cases hk : k' = k
    · rw [if_pos hk] at h
      simp only [Option.some.injEq] at h
      exact h ▸ hfs (k', v') (by simp)
    · rw [if_neg hk] at h
      exact ih (fun p hp => hfs p (List.mem_cons_of_mem _ hp)) h

/-! ### Record lemmas -/
/-- Python's empty needle occurs in every string. -/
theorem strContains_empty_needle (b : String) : strContains b "" = true := by
  unfold strContains
  match b.data with
  | [] => rfl
  | c :: cs => simp [listContainsSub]

theorem alistGet_replace_same (d : List (String × YVal)) (k : String) (v : YVal)
    (h : (alistGet d k).isSome = true) :
    alistGet (d.map (fun p => if p.1 = k then (k, v) else p)) k = some v := by
  induction d with
  | nil => simp [alistGet] at h
  | cons p rest ih =>
    obtain ⟨a, b⟩ := p
    by_cases hk : a = k
    · subst hk
      rw [List.map_cons]
      have hstep : (if ((a, b) : String × YVal).1 = a then (a, v) else (a, b)) = (a, v) := by
        simp
      rw [hstep, alistGet, if_pos rfl]
    · rw [alistGet, if_neg hk] at h
      simp only [List.map_cons, if_neg hk]
      rw [alistGet, if_neg hk]
      exact ih h

theorem alistGet_replace_other (d : List (String × YVal)) (k k' : String) (v : YVal)
    (hne : k' ≠ k) :
    alistGet (d.map (fun p => if p.1 = k then (k, v) else p)) k' = alistGet d k' := by
  induction d with
  | nil => simp [alistGet]
  | cons p rest ih =>
    obtain ⟨a, b⟩ := p
    by_cases hk : a = k
    · subst hk
      simp only [List.map_cons, if_pos rfl]
      rw [alistGet, alistGet, if_neg (fun h => hne h.symm), if_neg (fun h => hne h.symm)]
      exact ih
    · simp only [List.map_cons, if_neg hk]
      rw [alistGet, alistGet]
      by_cases ha : a = k'
      · rw [if_pos ha, if_pos ha]
      · rw [if_neg ha, if_neg ha]
        exact ih

theorem alistGet_append_last (d : List (String × YVal)) (k : String) (v : YVal)
    (h : alistGet d k = none) : alistGet (d ++ [(k, v)]) k = some v := by
  induction d with
  | nil => simp [alistGet]
  | cons p rest ih =>
    obtain ⟨a, b⟩ := p
    rw [alistGet] at h
    by_cases ha : a = k
    · rw [if_pos ha] at h; cases h
    · rw [if_neg ha] at h
      rw [List.cons_append, alistGet, if_neg ha]
      exact ih h

theorem alistGet_append_other (d : List (String × YVal)) (k k' : String) (v : YVal)
    (hne : k' ≠ k) : alistGet (d ++ [(k, v)]) k' = alistGet d k' := by
  induction d with
  | nil =>
    rw [List.nil_append]
    simp only [alistGet]
    rw [if_neg (fun h => hne h.symm)]
  | cons p rest ih =>
    obtain ⟨a, b⟩ := p
    rw [List.cons_append, alistGet, alistGet]
    by_cases ha : a = k'
    · rw [if_pos ha, if_pos ha]
    · rw [if_neg ha, if_neg ha]
      exact ih

/-- `d[k] = v` makes lookup of `k` yield `v`. -/
theorem alistGet_dictSet_same (d : List (String × YVal)) (k : String) (v : YVal) :
    alistGet (dictSet d k v) k = some v := by
  unfold dictSet
  by_cases h : (alistGet d k).isSome
  · rw [if_pos h]
    exact alistGet_replace_same d k v h
  · rw [if_neg h]
    exact alistGet_append_last d k v (Option.not_isSome_iff_eq_none.mp h)

/-- `d[k] = v` leaves every other key's lookup unchanged. -/
theorem alistGet_dictSet_other (d : List (String × YVal)) (k k' : String) (v : YVal)
    (hne : k' ≠ k) : alistGet (dictSet d k v) k' = alistGet d k' := by
  unfold dictSet
  by_cases h : (alistGet d k).isSome
  · rw [if_pos h]
    exact alistGet_replace_other d k k' v hne
  · rw [if_neg h]
    exact alistGet_append_other d k k' v hne

/-! ### Claim C4: HTTP classification on a completed response -/
/-- C4: for every HTTP probe that obtains a completed response: if an
expected status is configured and differs from the actual code, the record is
status "error" with error `unexpected_status:<actual>`; otherwise, if
expected text is configured and absent from the body, the record is status
"error" with error `unexpected_body` (the body is checked only when the
status check passed); if neither fires, the record is status "ok" with no
error field. -/
theorem http_response_classification (check : HttpCheck) (ts : String)
    (status_code : Int) (body : String) (duration : ℚ) :
    (∀ es, check.expect_status = some es → status_code ≠ es →
      alistGet (http_response_record check ts status_code body duration) "status"
          = some (.str "error")
      ∧ alistGet (http_response_record check ts status_code body duration) "error"
          = some (.str ("unexpected_status:" ++ intToStr status_code)))
    ∧ ((check.expect_status = none ∨ check.expect_status = some status_code) →
      ∀ et, check.expect_text = some et → strContains body et = false →
      alistGet (http_response_record check ts status_code body duration) "status"
          = some (.str "error")
      ∧ alistGet (http_response_record check ts status_code body duration) "error"
          = some (.str "unexpected_body"))
    ∧ ((check.expect_status = none ∨ check.expect_status = some status_code) →
      (∀ et, check.expect_text = some et → strContains body et = true) →
      alistGet (http_response_record check ts status_code body duration) "status"
          = some (.str "ok")
      ∧ alistGet (http_response_record check ts status_code body duration) "error"
          = none) := by
  refine ⟨?_, ?_, ?_⟩
  · intro es hes hne
    constructor <;> simp [http_response_record, hes, hne, alistGet]
  · intro hst et het hmiss
    rcases hst with h | h <;>
      (constructor <;> simp [http_response_record, h, het, hmiss, alistGet])
  · intro hst htext
    rcases hcet : check.expect_text with _ | et
    · rcases hst with h | h <;>
        (constructor <;> simp [http_response_record, h, hcet, alistGet])
    · rcases hst with h | h <;>
        (constructor <;>
          simp [http_response_record, h, hcet, htext et hcet, alistGet])

/-- Closed instance of `http_response_classification` exercising all three
branches at concrete inputs. -/
theorem http_response_classification_witness :
    (alistGet (http_response_record
        ⟨"h", "GET", "http://10.0.0.5/", none, some 200, none⟩ "t" 404 "x" 0) "error"
      = some (.str "unexpected_status:404"))
    ∧ (alistGet (http_response_record
        ⟨"h", "GET", "http://10.0.0.5/", some "ready", some 200, none⟩ "t" 200 "nope" 0) "error"
      = some (.str "unexpected_body"))
    ∧ (alistGet (http_response_record
        ⟨"h", "GET", "http://10.0.0.5/", some "ready", some 200, none⟩ "t" 200 "ready!" 0) "status"
      = some (.str "ok")) := by
  refine ⟨?_, ?_, ?_⟩
  · exact ((http_response_classification
      ⟨"h", "GET", "http://10.0.0.5/", none, some 200, none⟩ "t" 404 "x" 0).1
      200 rfl (by decide)).2
  · exact ((http_response_classification
      ⟨"h", "GET", "http://10.0.0.5/", some "ready", some 200, none⟩ "t" 200 "nope" 0).2.1
      (Or.inr rfl) "ready" rfl (by decide)).2
  · exact ((http_response_classification
      ⟨"h", "GET", "http://10.0.0.5/", some "ready", some 200, none⟩ "t" 200 "ready!" 0).2.2
      (Or.inr rfl) (fun et het => by cases het; decide)).1

/-! ### Claim C5: request-level failure classification -/
/-- C5: for every HTTP probe whose request fails with an exception: if the
probe's accepted-error substring is configured (nonempty, the only way Python
truthiness lets it act) and occurs in the failure text, the record is status
"ok" with a note identifying the accepted error text; otherwise the record is
status "error" tagged with the exception's class name and full description. -/
theorem http_exception_classification (check : HttpCheck) (ts excType detail : String)
    (status_code : Option Int) (body : Option String) (duration : ℚ) :
    (∀ s, check.accept_error_substring = some s → s ≠ "" → strContains detail s = true →
      alistGet (http_exception_record check ts excType detail status_code body duration)
          "status" = some (.str "ok")
      ∧ alistGet (http_exception_record check ts excType detail status_code body duration)
          "note" = some (.str "accepted_error")
      ∧ alistGet (http_exception_record check ts excType detail status_code body duration)
          "accepted_error" = some (.str detail))
    ∧ ((∀ s, check.accept_error_substring = some s →
          s = "" ∨ strContains detail s = false) →
      alistGet (http_exception_record check ts excType detail status_code body duration)
          "status" = some (.str "error")
      ∧ alistGet (http_exception_record check ts excType detail status_code body duration)
          "error" = some (.str ("exception:" ++ excType))
      ∧ alistGet (http_exception_record check ts excType detail status_code body duration)
          "detail" = some (.str detail)) := by
  constructor
  · intro s hs hne hocc
    refine ⟨?_, ?_, ?_⟩ <;> simp [http_exception_record, hs, hne, hocc, alistGet]
  · intro hno
    rcases haes : check.accept_error_substring with _ | s
    · refine ⟨?_, ?_, ?_⟩ <;> simp [http_exception_record, haes, alistGet]
    · rcases hno s haes with h | h <;>
        (refine ⟨?_, ?_, ?_⟩ <;> simp [http_exception_record, haes, h, alistGet])

/-- Closed instance of `http_exception_classification`: an accepted
connection-refused failure is "ok", the same failure without the configured
substring is "error". -/
theorem http_exception_classification_witness :
    (alistGet (http_exception_record
        ⟨"h", "GET", "http://10.0.0.5:9/", none, none, some "Connection refused"⟩
        "t" "ConnectError" "[Errno 111] Connection refused" none none 0) "status"
      = some (.str "ok"))
    ∧ (alistGet (http_exception_record
        ⟨"h", "GET", "http://10.0.0.5:9/", none, none, none⟩
        "t" "ConnectError" "[Errno 111] Connection refused" none none 0) "status"
      = some (.str "error")) := by
  constructor
  · exact ((http_exception_classification
      ⟨"h", "GET", "http://10.0.0.5:9/", none, none, some "Connection refused"⟩
      "t" "ConnectError" "[Errno 111] Connection refused" none none 0).1
      "Connection refused" rfl (by decide) (by decide)).1
  · exact ((http_exception_classification
      ⟨"h", "GET", "http://10.0.0.5:9/", none, none, none⟩
      "t" "ConnectError" "[Errno 111] Connection refused" none none 0).2
      (fun s hs => by cases hs)).1

/-! ### Claim C10: present-but-empty optional fields -/
/-- C10: an empty accepted-error substring acts as if absent — a request
failure is always classified "error" — while an empty expected text is
checked and satisfied by every body, so the completed-response branch can
never produce `unexpected_body`. -/
theorem http_empty_optional_fields (check : HttpCheck) (ts excType detail : String)
    (opt_status : Option Int) (opt_body : Option String)
    (status_code : Int) (body : String) (duration : ℚ) :
    (check.accept_error_substring = some "" →
      alistGet (http_exception_record check ts excType detail opt_status opt_body duration)
          "status" = some (.str "error"))
    ∧ (check.expect_text = some "" →
      alistGet (http_response_record check ts status_code body duration) "error"
          ≠ some (.str "unexpected_body")) := by
  constructor
  · intro haes
    simp [http_exception_record, haes, alistGet]
  · intro het
    rcases hes : check.expect_status with _ | es
    · simp [http_response_record, het, hes, strContains_empty_needle, alistGet]
    · by_cases hne : status_code = es
      · simp [http_response_record, het, hes, hne, strContains_empty_needle, alistGet]
      · simp [http_response_record, het, hes, hne, strContains_empty_needle, alistGet]
        intro h
        have hlen := congrArg String.length h
        rw [String.length_append] at hlen
        have h1 : ("unexpected_status:" : String).length = 18 := rfl
        have h2 : ("unexpected_body" : String).length = 15 := rfl
        omega

/-- Closed instance of `http_empty_optional_fields` at concrete inputs. -/
theorem http_empty_optional_fields_witness :
    (alistGet (http_exception_record ⟨"h", "GET", "u", some "", none, some ""⟩
        "t" "ConnectError" "boom" none none 0) "status" = some (.str "error"))
    ∧ (alistGet (http_response_record ⟨"h", "GET", "u", some "", none, none⟩
        "t" 200 "anything" 0) "error" ≠ some (.str "unexpected_body")) := by
  constructor
  · exact (http_empty_optional_fields ⟨"h", "GET", "u", some "", none, some ""⟩
      "t" "ConnectError" "boom" none none 200 "anything" 0).1 rfl
  · exact (http_empty_optional_fields ⟨"h", "GET", "u", some "", none, none⟩
      "t" "ConnectError" "boom" none none 200 "anything" 0).2 rfl

/-! ### Claim C6: latency probe classification -/
/-- C6: for every latency probe execution, the record is "ok" iff the process
exited with code 0; any nonzero exit code gives "error" with
`error = "ping_failed"`; in both cases the record carries the exit code
verbatim, the trimmed captured output streams, and the measured latency. -/
theorem ping_record_classification (check : PingCheck) (ts : String)
    (returncode : Int) (stdout stderr : String) (duration : ℚ) :
    (alistGet (run_ping check ts returncode stdout stderr duration) "status"
        = some (.str "ok") ↔ returncode = 0)
    ∧ (returncode ≠ 0 →
      alistGet (run_ping check ts returncode stdout stderr duration) "error"
        = some (.str "ping_failed"))
    ∧ (returncode = 0 →
      alistGet (run_ping check ts returncode stdout stderr duration) "error" = none)
    ∧ alistGet (run_ping check ts returncode stdout stderr duration) "return_code"
        = some (.num returncode)
    ∧ alistGet (run_ping check ts returncode stdout stderr duration) "stdout"
        = some (.str (stripStr stdout))
    ∧ alistGet (run_ping check ts returncode stdout stderr duration) "stderr"
        = some (.str (stripStr stderr))
    ∧ alistGet (run_ping check ts returncode stdout stderr duration) "latency_s"
        = some (.float duration) := by
  by_cases hrc : returncode = 0 <;>
    refine ⟨?_, ?_, ?_, ?_, ?_, ?_, ?_⟩ <;>
    simp [run_ping, hrc, alistGet]

/-- Closed instance of `ping_record_classification` at exit codes 0 and 2. -/
theorem ping_record_classification_witness :
    (alistGet (run_ping ⟨"p", "10.0.0.5"⟩ "t" 0 " out " "" 1) "status" = some (.str "ok"))
    ∧ (alistGet (run_ping ⟨"p", "10.0.0.5"⟩ "t" 2 "" " err " 1) "error"
        = some (.str "ping_failed"))
    ∧ (alistGet (run_ping ⟨"p", "10.0.0.5"⟩ "t" 2 "" " err " 1) "return_code"
        = some (.num 2)) := by
  refine ⟨?_, ?_, ?_⟩
  · exact (ping_record_classification ⟨"p", "10.0.0.5"⟩ "t" 0 " out " "" 1).1.mpr rfl
  · exact (ping_record_classification ⟨"p", "10.0.0.5"⟩ "t" 2 "" " err " 1).2.1 (by decide)
  · exact (ping_record_classification ⟨"p", "10.0.0.5"⟩ "t" 2 "" " err " 1).2.2.2.1

/-! ### Claim C8: the result emitter's frame -/
/-- C8 counterexample: the raw ping record's `host` field (the probe target)
does not keep its original value through `log_record` — it is overwritten
with the local machine hostname. -/
theorem log_record_host_clobbered :
    alistGet (run_ping ⟨"p1", "10.0.0.5"⟩ "t0" 0 "" "" 0) "host"
        = some (.str "10.0.0.5")
    ∧ alistGet (log_record (run_ping ⟨"p1", "10.0.0.5"⟩ "t0" 0 "" "" 0)
        "inst-1" "host" "edge-1" "monitor-7") "host" = some (.str "monitor-7")
    ∧ (YVal.str "10.0.0.5" ≠ YVal.str "monitor-7") := by
  refine ⟨rfl, rfl, ?_⟩
  simp

/-- C8 (amended): the enriched record equals the raw record with exactly the
four identity fields set — instance id, instance role, owning node name and
local hostname; every raw field outside those four keys keeps its value, but
a raw field AT one of those keys (in particular the ping records' `host`,
the probe target) is overwritten rather than preserved. -/
theorem log_record_frame (record : List (String × YVal))
    (iid role node_name host_name k : String)
    (hk : k ≠ "instance_id" ∧ k ≠ "instance_role" ∧ k ≠ "node" ∧ k ≠ "host") :
    alistGet (log_record record iid role node_name host_name) k = alistGet record k
    ∧ alistGet (log_record record iid role node_name host_name) "instance_id"
        = some (.str iid)
    ∧ alistGet (log_record record iid role node_name host_name) "instance_role"
        = some (.str role)
    ∧ alistGet (log_record record iid role node_name host_name) "node"
        = some (.str node_name)
    ∧ alistGet (log_record record iid role node_name host_name) "host"
        = some (.str host_name) := by
  obtain ⟨h1, h2, h3, h4⟩ := hk
  unfold log_record
  refine ⟨?_, ?_, ?_, ?_, ?_⟩
  · rw [alistGet_dictSet_other _ _ _ _ h4, alistGet_dictSet_other _ _ _ _ h3,
      alistGet_dictSet_other _ _ _ _ h2, alistGet_dictSet_other _ _ _ _ h1]
  · rw [alistGet_dictSet_other _ _ _ _ (by decide), alistGet_dictSet_other _ _ _ _ (by decide),
      alistGet_dictSet_other _ _ _ _ (by decide), alistGet_dictSet_same]
  · rw [alistGet_dictSet_other _ _ _ _ (by decide), alistGet_dictSet_other _ _ _ _ (by decide),
      alistGet_dictSet_same]
  · rw [alistGet_dictSet_other _ _ _ _ (by decide), alistGet_dictSet_same]
  · rw [alistGet_dictSet_same]

/-- Closed instance of `log_record_frame`: the `kind` field is preserved and
the four identity fields are set. -/
theorem log_record_frame_witness :
    alistGet (log_record (run_ping ⟨"p1", "10.0.0.5"⟩ "t0" 0 "" "" 0)
        "inst-1" "host" "edge-1" "monitor-7") "kind"
      = alistGet (run_ping ⟨"p1", "10.0.0.5"⟩ "t0" 0 "" "" 0) "kind"
    ∧ alistGet (log_record (run_ping ⟨"p1", "10.0.0.5"⟩ "t0" 0 "" "" 0)
        "inst-1" "host" "edge-1" "monitor-7") "node" = some (.str "edge-1") := by
  constructor
  · exact (log_record_frame (run_ping ⟨"p1", "10.0.0.5"⟩ "t0" 0 "" "" 0)
      "inst-1" "host" "edge-1" "monitor-7" "kind"
      ⟨by decide, by decide, by decide, by decide⟩).1
  · exact (log_record_frame (run_ping ⟨"p1", "10.0.0.5"⟩ "t0" 0 "" "" 0)
      "inst-1" "host" "edge-1" "monitor-7" "kind"
      ⟨by decide, by decide, by decide, by decide⟩).2.2.2.1

/-! ### Claim C9: duration parsing -/
/-- A successful `float` conversion certifies that every character of the
input is a float-literal character. -/
theorem pyFloat_chars {s : String} {x : ℚ} (h : pyFloat s = some x) :
    s.data.all isFloatChar = true := by
  by_cases hg : s.data.all isFloatChar
  · exact hg
  · rw [pyFloat, if_neg hg] at h
    cases h

theorem dropWhile_eq_self_of_all {p : Char → Bool} (cs : List Char)
    (h : ∀ c ∈ cs, p c = false) : cs.dropWhile p = cs := by
  match cs with
  | [] => rfl
  | c :: rest =>
    rw [List.dropWhile_cons_of_neg]
    rw [h c (by simp)]
    simp

/-- Stripping is the identity on whitespace-free text. -/
theorem stripChars_eq_self {cs : List Char} (h : ∀ c ∈ cs, isPySpace c = false) :
    stripChars cs = cs := by
  unfold stripChars
  rw [dropWhile_eq_self_of_all cs h]
  rw [dropWhile_eq_self_of_all cs.reverse (fun c hc => h c (List.mem_reverse.mp hc))]
  exact List.reverse_reverse cs

/-- Float-literal characters carry no whitespace. -/
theorem floatChar_not_space {c : Char} (h : isFloatChar c = true) :
    isPySpace c = false := by
  simp only [isFloatChar, Bool.or_eq_true, Bool.and_eq_true, decide_eq_true_eq] at h
  simp only [isPySpace, Bool.or_eq_false_iff, decide_eq_false_iff_not]
  omega

/-- Float-literal characters are fixed by lower-casing. -/
theorem floatChar_lower_fix {c : Char} (h : isFloatChar c = true) :
    lowerChar c = c := by
  simp only [isFloatChar, Bool.or_eq_true, Bool.and_eq_true, decide_eq_true_eq] at h
  rw [lowerChar, if_neg (by omega)]

/-- Lower-casing is the identity on float-literal text. -/
theorem map_lower_eq_self {cs : List Char} (h : ∀ c ∈ cs, isFloatChar c = true) :
    cs.map lowerChar = cs := by
  induction cs with
  | nil => rfl
  | cons c rest ih =>
    rw [List.map_cons, floatChar_lower_fix (h c (by simp)),
      ih (fun c hc => h c (List.mem_cons_of_mem _ hc))]

/-- A needle starting with a non-float character is no prefix of reversed
float-literal text. -/
theorem isPrefixOf_reverse_false {a : Char} (ha : isFloatChar a = false)
    (rest cs : List Char) (hall : ∀ c ∈ cs, isFloatChar c = true) :
    (a :: rest).isPrefixOf cs.reverse = false := by
  match hrev : cs.reverse with
  | [] => rfl
  | c :: r =>
    have hc : c ∈ cs := by
      rw [← List.mem_reverse, hrev]
      simp
    rw [List.isPrefixOf]
    cases heq : a == c with
    | true =>
      rw [beq_iff_eq] at heq
      subst heq
      rw [hall a hc] at ha
      cases ha
    | false => simp

/-- String from its characters. -/
theorem strMk_data (s : String) : (⟨s.data⟩ : String) = s := by
  cases s
  rfl

/-- Lower-casing is the identity on text whose characters it fixes. -/
theorem map_lower_eq_self_of_fix {cs : List Char} (h : ∀ c ∈ cs, lowerChar c = c) :
    cs.map lowerChar = cs := by
  induction cs with
  | nil => rfl
  | cons c rest ih =>
    rw [List.map_cons, h c (by simp), ih (fun c hc => h c (List.mem_cons_of_mem _ hc))]

/-- Normalisation (strip + lower) fixes a float literal with a lowercase
suffix of non-space, lower-fixed characters appended. -/
theorem duration_value_fix (s : String) (sfx : List Char)
    (hall : ∀ c ∈ s.data, isFloatChar c = true)
    (hsfx : ∀ c ∈ sfx, isPySpace c = false ∧ lowerChar c = c) :
    (lowerStr (stripStr (⟨s.data ++ sfx⟩ : String))).data = s.data ++ sfx := by
  have hns : ∀ c ∈ s.data ++ sfx, isPySpace c = false := by
    intro c hc
    rcases List.mem_append.mp hc with hc | hc
    · exact floatChar_not_space (hall c hc)
    · exact (hsfx c hc).1
  have hlf : ∀ c ∈ s.data ++ sfx, lowerChar c = c := by
    intro c hc
    rcases List.mem_append.mp hc with hc | hc
    · exact floatChar_lower_fix (hall c hc)
    · exact (hsfx c hc).2
  show ((stripChars (s.data ++ sfx)).map lowerChar) = s.data ++ sfx
  rw [stripChars_eq_self hns, map_lower_eq_self_of_fix hlf]

/-- Dropping the appended suffix recovers the original text. -/
theorem dropRightL_append (cs sfx : List Char) :
    dropRightL sfx.length (cs ++ sfx) = cs := by
  unfold dropRightL
  rw [List.length_append, Nat.add_sub_cancel]
  exact List.take_left cs sfx

/-- String append acts on the character lists. -/
theorem data_append (s t : String) : (s ++ t).data = s.data ++ t.data := rfl

/-- `endswith` sees an appended suffix. -/
theorem endsWith_append_self (cs sfx : List Char) :
    endsWithL sfx (cs ++ sfx) = true := by
  unfold endsWithL
  rw [List.reverse_append, List.isPrefixOf_iff_prefix]
  exact List.prefix_append _ _

/-- A float literal followed by `s` does not end with `ms`. -/
theorem not_endsWith_ms_of_s (s : String) (hall : ∀ c ∈ s.data, isFloatChar c = true) :
    endsWithL ['m', 's'] (s.data ++ ['s']) = false := by
  unfold endsWithL
  rw [List.reverse_append]
  show (['m']).isPrefixOf s.data.reverse = false
  exact isPrefixOf_reverse_false (by decide) [] s.data hall

/-- A float literal does not end with any of the unit suffixes. -/
theorem not_endsWith_unit (s : String) (hall : ∀ c ∈ s.data, isFloatChar c = true) :
    endsWithL ['m', 's'] s.data = false ∧ endsWithL ['s'] s.data = false
    ∧ endsWithL ['m'] s.data = false ∧ endsWithL ['h'] s.data = false := by
  refine ⟨?_, ?_, ?_, ?_⟩ <;> unfold endsWithL
  · exact isPrefixOf_reverse_false (by decide) ['m'] s.data hall
  · exact isPrefixOf_reverse_false (by decide) [] s.data hall
  · exact isPrefixOf_reverse_false (by decide) [] s.data hall
  · exact isPrefixOf_reverse_false (by decide) [] s.data hall

/-- A single-character suffix check against a different appended character. -/
theorem not_endsWith_of_last {s : String} {c : Char} (a : Char) (hne : (a == c) = false) :
    endsWithL [a] (s.data ++ [c]) = false := by
  unfold endsWithL
  rw [List.reverse_append]
  show ([a]).isPrefixOf (c :: s.data.reverse) = false
  simp [List.isPrefixOf, hne]

/-- A two-character suffix check against a different appended last
character. -/
theorem not_endsWith2_of_last {s : String} {c : Char} (a b : Char)
    (hne : (b == c) = false) :
    endsWithL [a, b] (s.data ++ [c]) = false := by
  unfold endsWithL
  rw [List.reverse_append]
  show ([b, a]).isPrefixOf (c :: s.data.reverse) = false
  simp [List.isPrefixOf, hne]

/-- The empty string is no float literal. -/
theorem pyFloat_empty : pyFloat "" = none := rfl

/-- C9: `parse_duration` converts human-readable durations into seconds: for
a numeric prefix `x`, `x` + "ms" yields `x/1000`, + "s" yields `x`, + "m"
yields `x*60`, + "h" yields `x*3600`, and a bare number yields itself; the
empty input and any input whose dispatched numeric part fails `float()`
yield the supplied default. -/
theorem parse_duration_spec :
    (∀ (s : String) (d x : ℚ), pyFloat s = some x →
      parse_duration (s ++ "ms") d = x / 1000
      ∧ parse_duration (s ++ "s") d = x
      ∧ parse_duration (s ++ "m") d = x * 60
      ∧ parse_duration (s ++ "h") d = x * 3600
      ∧ parse_duration s d = x)
    ∧ (∀ d : ℚ, parse_duration "" d = d)
    ∧ (∀ (t : String) (d : ℚ),
        pyFloat ⟨durationNumericPart (lowerStr (stripStr t)).data⟩ = none →
        parse_duration t d = d) := by
  refine ⟨?_, ?_, ?_⟩
  · intro s d x hx
    have hall : ∀ c ∈ s.data, isFloatChar c = true :=
      fun c hc => List.all_eq_true.mp (pyFloat_chars hx) c hc
    refine ⟨?_, ?_, ?_, ?_, ?_⟩
    · have hdata : (s ++ "ms").data = s.data ++ ['m', 's'] := rfl
      have hne : (s ++ "ms") ≠ "" := by
        rw [str_ne_empty_iff, hdata]
        simp
      have hstr : (s ++ "ms") = (⟨s.data ++ ['m', 's']⟩ : String) := by
        have := congrArg String.mk hdata
        rw [strMk_data] at this
        exact this
      have hval : (lowerStr (stripStr (s ++ "ms"))).data = s.data ++ ['m', 's'] := by
        rw [hstr]
        exact duration_value_fix s ['m', 's'] hall (by decide)
      rw [parse_duration, if_neg hne, hval,
        if_pos (endsWith_append_self s.data ['m', 's']),
        show dropRightL 2 (s.data ++ ['m', 's']) = s.data from
          dropRightL_append s.data ['m', 's'],
        strMk_data, hx]
    · have hdata : (s ++ "s").data = s.data ++ ['s'] := rfl
      have hne : (s ++ "s") ≠ "" := by
        rw [str_ne_empty_iff, hdata]
        simp
      have hstr : (s ++ "s") = (⟨s.data ++ ['s']⟩ : String) := by
        have := congrArg String.mk hdata
        rw [strMk_data] at this
        exact this
      have hval : (lowerStr (stripStr (s ++ "s"))).data = s.data ++ ['s'] := by
        rw [hstr]
        exact duration_value_fix s ['s'] hall (by decide)
      rw [parse_duration, if_neg hne, hval,
        if_neg (by rw [not_endsWith_ms_of_s s hall]; exact Bool.false_ne_true),
        if_pos (endsWith_append_self s.data ['s']),
        show dropRightL 1 (s.data ++ ['s']) = s.data from dropRightL_append s.data ['s'],
        strMk_data, hx]
    · have hdata : (s ++ "m").data = s.data ++ ['m'] := rfl
      have hne : (s ++ "m") ≠ "" := by
        rw [str_ne_empty_iff, hdata]
        simp
      have hstr : (s ++ "m") = (⟨s.data ++ ['m']⟩ : String) := by
        have := congrArg String.mk hdata
        rw [strMk_data] at this
        exact this
      have hval : (lowerStr (stripStr (s ++ "m"))).data = s.data ++ ['m'] := by
        rw [hstr]
        exact duration_value_fix s ['m'] hall (by decide)
      rw [parse_duration, if_neg hne, hval,
        if_neg (by rw [not_endsWith2_of_last 'm' 's' (by decide)]; exact Bool.false_ne_true),
        if_neg (by rw [not_endsWith_of_last 's' (by decide)]; exact Bool.false_ne_true),
        if_pos (endsWith_append_self s.data ['m']),
        show dropRightL 1 (s.data ++ ['m']) = s.data from dropRightL_append s.data ['m'],
        strMk_data, hx]
    · have hdata : (s ++ "h").data = s.data ++ ['h'] := rfl
      have hne : (s ++ "h") ≠ "" := by
        rw [str_ne_empty_iff, hdata]
        simp
      have hstr : (s ++ "h") = (⟨s.data ++ ['h']⟩ : String) := by
        have := congrArg String.mk hdata
        rw [strMk_data] at this
        exact this
      have hval : (lowerStr (stripStr (s ++ "h"))).data = s.data ++ ['h'] := by
        rw [hstr]
        exact duration_value_fix s ['h'] hall (by decide)
      rw [parse_duration, if_neg hne, hval,
        if_neg (by rw [not_endsWith2_of_last 'm' 's' (by decide)]; exact Bool.false_ne_true),
        if_neg (by rw [not_endsWith_of_last 's' (by decide)]; exact Bool.false_ne_true),
        if_neg (by rw [not_endsWith_of_last 'm' (by decide)]; exact Bool.false_ne_true),
        if_pos (endsWith_append_self s.data ['h']),
        show dropRightL 1 (s.data ++ ['h']) = s.data from dropRightL_append s.data ['h'],
        strMk_data, hx]
    · have hne : s ≠ "" := by
        intro h
        rw [h, pyFloat_empty] at hx
        cases hx
      have hval : lowerStr (stripStr s) = s := by
        have h1 : (lowerStr (stripStr s)).data = s.data := by
          show (stripChars s.data).map lowerChar = s.data
          rw [stripChars_eq_self (fun c hc => floatChar_not_space (hall c hc)),
            map_lower_eq_self_of_fix (fun c hc => floatChar_lower_fix (hall c hc))]
        rw [← strMk_data (lowerStr (stripStr s)), h1, strMk_data]
      obtain ⟨h1, h2, h3, h4⟩ := not_endsWith_unit s hall
      rw [parse_duration, if_neg hne, hval,
        if_neg (by rw [h1]; exact Bool.false_ne_true),
        if_neg (by rw [h2]; exact Bool.false_ne_true),
        if_neg (by rw [h3]; exact Bool.false_ne_true),
        if_neg (by rw [h4]; exact Bool.false_ne_true),
        hx]
  · intro d
    rw [parse_duration, if_pos rfl]
  · intro t d hnone
    by_cases ht : t = ""
    · rw [parse_duration, if_pos ht]
    · rw [parse_duration, if_neg ht]
      unfold durationNumericPart at hnone
      split_ifs at hnone ⊢ <;> rw [hnone]

/-- Closed instance of `parse_duration_spec` at the spec's examples. -/
theorem parse_duration_spec_witness :
    parse_duration "10s" 99 = 10 ∧ parse_duration "500ms" 99 = 1 / 2
    ∧ parse_duration "1m" 99 = 60 ∧ parse_duration "" 99 = 99
    ∧ parse_duration "zzz" 99 = 99 := by
  refine ⟨?_, ?_, ?_, ?_, ?_⟩
  · have h := ((parse_duration_spec.1 "10" 99 10 (by decide)).2.1)
    rw [show ("10" ++ "s") = "10s" from rfl] at h
    exact h
  · have h := ((parse_duration_spec.1 "500" 99 500 (by decide)).1)
    rw [show ("500" ++ "ms") = "500ms" from rfl] at h
    rw [h]
    norm_num
  · have h := ((parse_duration_spec.1 "1" 99 1 (by decide)).2.2.1)
    rw [show ("1" ++ "m") = "1m" from rfl] at h
    rw [h]
    norm_num
  · exact parse_duration_spec.2.1 99
  · exact parse_duration_spec.2.2 "zzz" 99 (by decide)

/-! ### Claims C1 and C3: materialisation of degenerate inventory entries -/
/-- A string transformation that fixes every string fixes every document. -/
theorem mapStrs_id (f : String → String) (hf : ∀ s, f s = s) (v : YVal) :
    mapStrs f v = v := by
  match v with
  | .null => rw [mapStrs]
  | .bool b => rw [mapStrs]
  | .num n => rw [mapStrs]
  | .float q => rw [mapStrs]
  | .str s => rw [mapStrs, hf s]
  | .arr xs =>
    rw [mapStrs, mapStrsL_eq_map]
    have h2 : ∀ y ∈ xs, mapStrs f y = id y := fun y hy => mapStrs_id f hf y
    rw [List.map_congr_left h2, List.map_id]
  | .obj fs =>
    rw [mapStrs, mapStrsF_eq_map]
    have h2 : ∀ q ∈ fs, (f q.1, mapStrs f q.2) = id q := by
      intro q hq
      rw [hf q.1, mapStrs_id f hf q.2]
      rfl
    rw [List.map_congr_left h2, List.map_id]
termination_by sizeOf v
decreasing_by
  · have := List.sizeOf_lt_of_mem hy
    simp only [YVal.arr.sizeOf_spec]
    omega
  · have h1 := List.sizeOf_lt_of_mem hq
    obtain ⟨a, b⟩ := q
    simp only [YVal.obj.sizeOf_spec, Prod.mk.sizeOf_spec] at h1 ⊢
    omega

/-- Expansion against an empty environment fixes every string. -/
theorem envExpandStr_none (s : String) : envExpandStr (fun _ => none) s = s := by
  unfold envExpandStr
  rw [envExpandChars_none, strMk_data]

/-- Expansion against an empty environment fixes every document. -/
theorem envExpandYVal_none (v : YVal) : envExpandYVal (fun _ => none) v = v :=
  mapStrs_id _ envExpandStr_none v

/-- `load_yaml` under an empty environment returns a truthy document as is. -/
theorem load_yaml_none_env {fs : String → Option YVal} {path : String} {doc : YVal}
    (hfs : fs path = some doc) (ht : pyTruthy doc = true) :
    load_yaml fs (fun _ => none) none path = .ok doc := by
  unfold load_yaml
  rw [hfs]
  simp only [envExpandYVal_none, ht, if_pos]

/-- `load_yaml` under an empty environment turns a falsy document into the
empty mapping. -/
theorem load_yaml_none_env_falsy {fs : String → Option YVal} {path : String} {doc : YVal}
    (hfs : fs path = some doc) (ht : pyTruthy doc = false) :
    load_yaml fs (fun _ => none) none path = .ok (.obj []) := by
  unfold load_yaml
  rw [hfs]
  simp only [envExpandYVal_none, ht]
  rw [if_neg (by simp)]

/-- C1 counterexample: a node whose declared profile (`default`) has no file
on disk makes materialisation raise `FileNotFoundError` — the process fails —
instead of yielding a `NodeChecks` with an empty probe set. -/
theorem missing_profile_raises :
    materialise_checks
      (fun p => if p = "cfg/nodes.yml" then
          some (.obj [("nodes", .arr [.obj [("name", .str "edge-1"),
            ("address", .str "10.0.0.5"), ("profile", .str "default")]])])
        else none)
      (fun _ => none) "cfg/nodes.yml" "cfg/profiles" none
      = .error (.fileNotFound "cfg/profiles/default.yml") := by rfl

/-- C1 (amended): a profile NAME whose file is missing from disk is fatal:
materialisation raises `FileNotFoundError` (no template override configured,
no environment bindings).  What is non-fatal is a profile FILE that exists
but parses to an empty document: that node is materialised with zero probes
of either kind. -/
theorem missing_profile_fatal_empty_profile_nonfatal :
    (∀ (nm ad p invp pdir : String) (fs : String → Option YVal),
      stripStr nm ≠ "" → stripStr ad ≠ "" →
      fs invp = some (.obj [("nodes", .arr [.obj [("name", .str nm),
        ("address", .str ad), ("profile", .str p)]])]) →
      fs (pdir ++ "/" ++ p ++ ".yml") = none →
      materialise_checks fs (fun _ => none) invp pdir none
        = .error (.fileNotFound (pdir ++ "/" ++ p ++ ".yml")))
    ∧ (∀ (nm ad p invp pdir : String) (fs : String → Option YVal),
      stripStr nm ≠ "" → stripStr ad ≠ "" →
      fs invp = some (.obj [("nodes", .arr [.obj [("name", .str nm),
        ("address", .str ad), ("profile", .str p)]])]) →
      fs (pdir ++ "/" ++ p ++ ".yml") = some .null →
      materialise_checks fs (fun _ => none) invp pdir none
        = .ok ⟨[⟨stripStr nm, [], []⟩], [pdir ++ "/" ++ p ++ ".yml"],
               [(.str p, .obj [])]⟩) := by
  constructor
  · intro nm ad p invp pdir fs hnm had hinv hprof
    unfold materialise_checks
    rw [load_yaml_none_env hinv (by rfl)]
    simp only [bind, Except.bind]
    simp only [alistGet, pyIterList, matLoop]
    simp only [if_true, Option.getD_some]
    rw [matLoop]
    have hbeq : (nm == "") = false :=
      beq_eq_false_iff_ne.mpr (fun h => hnm (by rw [h]; rfl))
    have habeq : (ad == "") = false :=
      beq_eq_false_iff_ne.mpr (fun h => had (by rw [h]; rfl))
    have hnp : nodeParams (.obj [("name", .str nm), ("address", .str ad),
        ("profile", .str p)]) = .ok (some (stripStr nm, stripStr ad, .str p)) := by
      unfold nodeParams
      simp only [yGetAttr, alistGet, bind, Except.bind, yGetD, pyOr, pyTruthy, pyStr,
        hbeq, habeq, Bool.not_false, if_true, Option.getD_some, String.reduceEq, reduceIte]
      simp only [hnm, had, or_self, if_false]
    unfold processNode
    simp only [bind, Except.bind, hnp]
    simp only [namedProfileData, cacheLookup, profilePath, pyStr]
    rw [show load_yaml fs (fun x => none) none (pdir ++ "/" ++ p ++ ".yml")
        = .error (.fileNotFound (pdir ++ "/" ++ p ++ ".yml")) from by
      unfold load_yaml
      rw [hprof]]
  · intro nm ad p invp pdir fs hnm had hinv hprof
    unfold materialise_checks
    rw [load_yaml_none_env hinv (by rfl)]
    simp only [bind, Except.bind]
    simp only [alistGet, pyIterList, matLoop]
    simp only [if_true, Option.getD_some]
    rw [matLoop]
    have hbeq : (nm == "") = false :=
      beq_eq_false_iff_ne.mpr (fun h => hnm (by rw [h]; rfl))
    have habeq : (ad == "") = false :=
      beq_eq_false_iff_ne.mpr (fun h => had (by rw [h]; rfl))
    have hnp : nodeParams (.obj [("name", .str nm), ("address", .str ad),
        ("profile", .str p)]) = .ok (some (stripStr nm, stripStr ad, .str p)) := by
      unfold nodeParams
      simp only [yGetAttr, alistGet, bind, Except.bind, yGetD, pyOr, pyTruthy, pyStr,
        hbeq, habeq, Bool.not_false, if_true, Option.getD_some, String.reduceEq, reduceIte]
      simp only [hnm, had, or_self, if_false]
    unfold processNode
    simp only [bind, Except.bind, hnp]
    simp only [namedProfileData, cacheLookup, profilePath, pyStr]
    rw [show load_yaml fs (fun x => none) none (pdir ++ "/" ++ p ++ ".yml")
        = .ok (.obj []) from load_yaml_none_env_falsy hprof (by rfl)]
    rfl

/-- Closed instance of `missing_profile_fatal_empty_profile_nonfatal`. -/
theorem missing_profile_fatal_witness :
    materialise_checks
      (fun q => if q = "cfg/nodes.yml" then
          some (.obj [("nodes", .arr [.obj [("name", .str "edge-1"),
            ("address", .str "10.0.0.5"), ("profile", .str "empty")]])])
        else if q = "cfg/profiles/empty.yml" then some .null
        else none)
      (fun _ => none) "cfg/nodes.yml" "cfg/profiles" none
      = .ok ⟨[⟨"edge-1", [], []⟩], ["cfg/profiles/empty.yml"],
             [(.str "empty", .obj [])]⟩ := by
  have h := missing_profile_fatal_empty_profile_nonfatal.2 "edge-1" "10.0.0.5" "empty"
    "cfg/nodes.yml" "cfg/profiles"
    (fun q => if q = "cfg/nodes.yml" then
        some (.obj [("nodes", .arr [.obj [("name", .str "edge-1"),
          ("address", .str "10.0.0.5"), ("profile", .str "empty")]])])
      else if q = "cfg/profiles/empty.yml" then some .null
      else none)
    (by decide) (by decide) (by rfl) (by rfl)
  exact h

/-- C3 counterexample: an inventory entry with no name and no id (only an
address) is NOT skipped: the name falls back to the literal `"node"` and one
`NodeChecks` is produced for the entry. -/
theorem missing_name_not_skipped :
    materialise_checks
      (fun q => if q = "cfg/nodes.yml" then
          some (.obj [("nodes", .arr [.obj [("address", .str "10.0.0.5")]])])
        else if q = "cfg/profiles/default.yml" then some .null else none)
      (fun _ => none) "cfg/nodes.yml" "cfg/profiles" none
      = .ok ⟨[⟨"node", [], []⟩], ["cfg/profiles/default.yml"],
             [(.str "default", .obj [])]⟩ := by rfl

/-- C3 (amended): an entry whose address (after the address/host fallback
chain) strips to the empty string is skipped entirely, and so is an entry
whose name strips to the empty string (e.g. whitespace-only); but an entry
missing both name and id is NOT skipped: its name defaults to `"node"`. -/
theorem node_skip_rules :
    (∀ (fs : String → Option YVal) (env : String → Option String)
      (pdir : String) (tmpl : Option String) (cache : List (YVal × YVal))
      (flds : List (String × YVal)),
      stripStr (pyStr (pyOr (yGetN (.obj flds) "address")
        (pyOr (yGetN (.obj flds) "host") (.str "")))) = "" →
      processNode fs env pdir tmpl cache (.obj flds) = .ok (none, cache, []))
    ∧ (∀ (fs : String → Option YVal) (env : String → Option String)
      (pdir : String) (tmpl : Option String) (cache : List (YVal × YVal))
      (flds : List (String × YVal)),
      stripStr (pyStr (pyOr (yGetN (.obj flds) "name")
        (pyOr (yGetN (.obj flds) "id") (.str "node")))) = "" →
      processNode fs env pdir tmpl cache (.obj flds) = .ok (none, cache, []))
    ∧ (∀ flds : List (String × YVal),
      alistGet flds "name" = none → alistGet flds "id" = none →
      stripStr (pyStr (pyOr (yGetN (.obj flds) "name")
        (pyOr (yGetN (.obj flds) "id") (.str "node")))) = "node") := by
  refine ⟨?_, ?_, ?_⟩
  · intro fs env pdir tmpl cache flds haddr
    simp only [yGetN] at haddr
    have hnp : nodeParams (.obj flds) = .ok none := by
      unfold nodeParams
      simp only [yGetAttr, bind, Except.bind]
      rw [if_pos (Or.inr haddr)]
    unfold processNode
    simp only [bind, Except.bind, hnp]
  · intro fs env pdir tmpl cache flds hname
    simp only [yGetN] at hname
    have hnp : nodeParams (.obj flds) = .ok none := by
      unfold nodeParams
      simp only [yGetAttr, bind, Except.bind]
      rw [if_pos (Or.inl hname)]
    unfold processNode
    simp only [bind, Except.bind, hnp]
  · intro flds h1 h2
    simp only [yGetN, h1, h2, Option.getD_none]
    rfl

/-- Closed instance of `node_skip_rules`: an entry with a name but no
address is skipped; a whitespace-only name is skipped; the default name is
`"node"`. -/
theorem node_skip_rules_witness :
    processNode (fun _ => none) (fun _ => none) "cfg/profiles" none []
      (.obj [("name", .str "edge-1")]) = .ok (none, [], [])
    ∧ processNode (fun _ => none) (fun _ => none) "cfg/profiles" none []
      (.obj [("name", .str "   "), ("address", .str "10.0.0.5")]) = .ok (none, [], [])
    ∧ stripStr (pyStr (pyOr (yGetN (.obj [("address", .str "10.0.0.5")]) "name")
        (pyOr (yGetN (.obj [("address", .str "10.0.0.5")]) "id") (.str "node"))))
      = "node" := by
  refine ⟨?_, ?_, ?_⟩
  · exact node_skip_rules.1 (fun _ => none) (fun _ => none) "cfg/profiles" none []
      [("name", .str "edge-1")] (by rfl)
  · exact node_skip_rules.2.1 (fun _ => none) (fun _ => none) "cfg/profiles" none []
      [("name", .str "   "), ("address", .str "10.0.0.5")] (by rfl)
  · exact node_skip_rules.2.2 [("address", .str "10.0.0.5")] (by rfl) (by rfl)

/-! ### Claim C7: the profile cache -/
mutual

/-- `yBEq` is sound: equal test means equal documents. -/
theorem yBEq_eq : ∀ a b : YVal, yBEq a b = true → a = b
  | .null, .null, _ => rfl
  | .bool a, .bool b, h => by
    rw [yBEq] at h
    rw [beq_iff_eq.mp h]
  | .num a, .num b, h => by
    rw [yBEq] at h
    rw [beq_iff_eq.mp h]
  | .float a, .float b, h => by
    rw [yBEq] at h
    rw [beq_iff_eq.mp h]
  | .str a, .str b, h => by
    rw [yBEq] at h
    rw [beq_iff_eq.mp h]
  | .arr xs, .arr ys, h => by
    rw [yBEq] at h
    rw [yBEqL_eq xs ys h]
  | .obj fs, .obj gs, h => by
    rw [yBEq] at h
    rw [yBEqF_eq fs gs h]

/-- `yBEqL` is sound. -/
theorem yBEqL_eq : ∀ xs ys : List YVal, yBEqL xs ys = true → xs = ys
  | [], [], _ => rfl
  | x :: xs, y :: ys, h => by
    rw [yBEqL] at h
    rw [Bool.and_eq_true] at h
    rw [yBEq_eq x y h.1, yBEqL_eq xs ys h.2]

/-- `yBEqF` is sound. -/
theorem yBEqF_eq : ∀ fs gs : List (String × YVal), yBEqF fs gs = true → fs = gs
  | [], [], _ => rfl
  | (k, v) :: fs, (k', v') :: gs, h => by
    rw [yBEqF] at h
    rw [Bool.and_eq_true, Bool.and_eq_true] at h
    rw [beq_iff_eq.mp h.1.1, yBEq_eq v v' h.1.2, yBEqF_eq fs gs h.2]

end

/-- A failed cache lookup means no stored key tests equal. -/
theorem cacheLookup_none {cache : List (YVal × YVal)} {k : YVal}
    (h : cacheLookup cache k = none) : ∀ q ∈ cache, yBEq q.1 k = false := by
  induction cache with
  | nil => intro q hq; cases hq
  | cons p rest ih =>
    obtain ⟨k', v⟩ := p
    rw [cacheLookup] at h
    by_cases hb : yBEq k' k = true
    · rw [if_pos hb] at h; cases h
    · rw [if_neg hb] at h
      intro q hq
      rcases List.mem_cons.mp hq with rfl | hq
      · exact Bool.not_eq_true _ ▸ hb
      · exact ih h q hq

/-- A successful cache lookup returns a stored entry whose key is the one
looked up. -/
theorem cacheLookup_some {cache : List (YVal × YVal)} {k v : YVal}
    (h : cacheLookup cache k = some v) : (k, v) ∈ cache := by
  induction cache with
  | nil => cases h
  | cons p rest ih =>
    obtain ⟨k', v'⟩ := p
    rw [cacheLookup] at h
    by_cases hb : yBEq k' k = true
    · rw [if_pos hb] at h
      obtain rfl := Option.some.injEq .. ▸ h
      · rw [← yBEq_eq k' k hb]
        exact List.mem_cons_self _ _
    · rw [if_neg hb] at h
      exact List.mem_cons_of_mem _ (ih h)

/-- Distinct profile names give distinct profile paths. -/
theorem profilePath_inj {pdir a b : String}
    (h : profilePath pdir (.str a) = profilePath pdir (.str b)) : a = b := by
  unfold profilePath at h
  have hd := congrArg String.data h
  simp only [data_append, pyStr] at hd
  have h2 := List.append_cancel_right hd
  have h3 := List.append_cancel_left h2
  cases a
  cases b
  simp only at h3
  rw [h3]

/-- With a pristine cache (every entry is exactly what reading its profile
file yields), one loop iteration produces the same `NodeChecks` as a
cache-free iteration, extends the cache only by pristine entries whose keys
were not yet cached, and reads exactly the newly cached files. -/
theorem processNode_pristine (fs : String → Option YVal) (env : String → Option String)
    (pdir : String) (cache : List (YVal × YVal)) (node : YVal)
    (onc : Option NodeChecks) (cache' : List (YVal × YVal)) (newReads : List String)
    (hpr : ∀ q ∈ cache, load_yaml fs env none (profilePath pdir q.1) = .ok q.2)
    (h : processNode fs env pdir none cache node = .ok (onc, cache', newReads)) :
    (processNode fs env pdir none [] node).map (fun r => r.1) = .ok onc
    ∧ ∃ added, cache' = cache ++ added
      ∧ newReads = added.map (fun q => profilePath pdir q.1)
      ∧ (∀ q ∈ added, cacheLookup cache q.1 = none)
      ∧ (∀ q ∈ added, load_yaml fs env none (profilePath pdir q.1) = .ok q.2)
      ∧ added.length ≤ 1 := by
  unfold processNode at h ⊢
  simp only [bind, Except.bind] at h ⊢
  match hnp : nodeParams node with
  | .error e =>
    rw [hnp] at h
    dsimp only at h
    cases h
  | .ok none =>
    rw [hnp] at h
    dsimp only at h ⊢
    simp only [Except.ok.injEq, Prod.mk.injEq] at h
    obtain ⟨h1, h2, h3⟩ := h
    subst h1; subst h2; subst h3
    exact ⟨rfl, [], by simp, rfl, fun q hq => absurd hq (List.not_mem_nil q),
      fun q hq => absurd hq (List.not_mem_nil q), by simp⟩
  | .ok (some (nn, ad, pn)) =>
    rw [hnp] at h
    dsimp only at h ⊢
    match hnpd : namedProfileData fs env pdir cache pn ad with
    | .error e =>
      rw [hnpd] at h
      dsimp only at h
      cases h
    | .ok (pd, c2, rds) =>
      rw [hnpd] at h
      dsimp only at h
      match hb : buildNodeChecks nn ad pd with
      | .error e =>
        rw [hb] at h
        dsimp only at h
        cases h
      | .ok nc =>
        rw [hb] at h
        dsimp only at h
        simp only [Except.ok.injEq, Prod.mk.injEq] at h
        obtain ⟨h1, h2, h3⟩ := h
        subst h1; subst h2; subst h3
        unfold namedProfileData at hnpd
        match hcl : cacheLookup cache pn with
        | some raw =>
          rw [hcl] at hnpd
          dsimp only at hnpd
          simp only [Except.ok.injEq, Prod.mk.injEq] at hnpd
          obtain ⟨hpd, hc2, hrds⟩ := hnpd
          subst hpd; subst hc2; subst hrds
          have hmem := cacheLookup_some hcl
          have hload := hpr (pn, raw) hmem
          constructor
          · rw [show namedProfileData fs env pdir [] pn ad
                = .ok (substYVal addressPlaceholder ad raw, [(pn, raw)],
                       [profilePath pdir pn]) from by
              unfold namedProfileData
              rw [show cacheLookup [] pn = none from rfl, hload]
              rfl]
            dsimp only
            rw [hb]
            rfl
          · exact ⟨[], by simp, rfl, fun q hq => absurd hq (List.not_mem_nil q),
              fun q hq => absurd hq (List.not_mem_nil q), by simp⟩
        | none =>
          rw [hcl] at hnpd
          dsimp only at hnpd
          match hld : load_yaml fs env none (profilePath pdir pn) with
          | .error e =>
            rw [hld] at hnpd
            dsimp only at hnpd
            cases hnpd
          | .ok raw =>
            rw [hld] at hnpd
            dsimp only at hnpd
            simp only [Except.ok.injEq, Prod.mk.injEq] at hnpd
            obtain ⟨hpd, hc2, hrds⟩ := hnpd
            subst hpd; subst hc2; subst hrds
            constructor
            · rw [show namedProfileData fs env pdir [] pn ad
                  = .ok (substYVal addressPlaceholder ad raw, [(pn, raw)],
                         [profilePath pdir pn]) from by
                unfold namedProfileData
                rw [show cacheLookup [] pn = none from rfl, hld]
                rfl]
              dsimp only
              rw [hb]
              rfl
            · refine ⟨[(pn, raw)], rfl, rfl, ?_, ?_, by simp⟩
              · intro q hq
                rw [List.mem_singleton] at hq
                subst hq
                exact hcl
              · intro q hq
                rw [List.mem_singleton] at hq
                subst hq
                exact hld

/-- Lists with at most one element are vacuously pairwise. -/
theorem pairwise_of_length_le_one {α : Type} {R : α → α → Prop} {l : List α}
    (h : l.length ≤ 1) : l.Pairwise R := by
  match l with
  | [] => exact List.Pairwise.nil
  | [x] => exact List.pairwise_singleton R x
  | x :: y :: rest => simp at h

/-- The materialisation loop with a pristine, key-distinct cache: the final
cache stays pristine and key-distinct, the performed reads are exactly the
files of the newly cached profiles, and the produced checks agree with the
cache-free specification. -/
theorem matLoop_pristine (fs : String → Option YVal) (env : String → Option String)
    (pdir : String) :
    ∀ (nodes : List YVal) (cache : List (YVal × YVal)) (reads : List String)
      (acc checks : List NodeChecks) (reads' : List String)
      (cache' : List (YVal × YVal)),
      matLoop fs env pdir none nodes cache reads acc = .ok (checks, reads', cache') →
      (∀ q ∈ cache, load_yaml fs env none (profilePath pdir q.1) = .ok q.2) →
      cache.Pairwise (fun q r => yBEq q.1 r.1 = false) →
      (∀ q ∈ cache', load_yaml fs env none (profilePath pdir q.1) = .ok q.2)
      ∧ cache'.Pairwise (fun q r => yBEq q.1 r.1 = false)
      ∧ (∃ added, cache' = cache ++ added
          ∧ reads' = reads ++ added.map (fun q => profilePath pdir q.1))
      ∧ (∃ cs, matSpec fs env pdir nodes = .ok cs ∧ checks = acc ++ cs) := by
  intro nodes
  induction nodes with
  | nil =>
    intro cache reads acc checks reads' cache' h hpr hpw
    rw [matLoop] at h
    simp only [Except.ok.injEq, Prod.mk.injEq] at h
    obtain ⟨h1, h2, h3⟩ := h
    subst h1; subst h2; subst h3
    exact ⟨hpr, hpw, ⟨[], by simp, by simp⟩, [], rfl, by simp⟩
  | cons node rest ih =>
    intro cache reads acc checks reads' cache' h hpr hpw
    rw [matLoop] at h
    match hpn : processNode fs env pdir none cache node with
    | .error e => rw [hpn] at h; cases h
    | .ok (onc, c2, newReads) =>
      rw [hpn] at h
      dsimp only at h
      obtain ⟨hfresh, added0, hc2, hreads0, hlk0, hld0, hlen0⟩ :=
        processNode_pristine fs env pdir cache node onc c2 newReads hpr hpn
      have hpr2 : ∀ q ∈ c2, load_yaml fs env none (profilePath pdir q.1) = .ok q.2 := by
        intro q hq
        rw [hc2] at hq
        rcases List.mem_append.mp hq with hq | hq
        · exact hpr q hq
        · exact hld0 q hq
      have hpw2 : c2.Pairwise (fun q r => yBEq q.1 r.1 = false) := by
        rw [hc2]
        rw [List.pairwise_append]
        refine ⟨hpw, pairwise_of_length_le_one hlen0, ?_⟩
        intro a ha b hb
        exact cacheLookup_none (hlk0 b hb) a ha
      obtain ⟨hpr3, hpw3, ⟨added1, hc3, hreads1⟩, cs1, hspec1, hchecks1⟩ :=
        ih c2 (reads ++ newReads) (acc ++ onc.toList) checks reads' cache' h hpr2 hpw2
      refine ⟨hpr3, hpw3, ⟨added0 ++ added1, ?_, ?_⟩, ?_⟩
      · rw [hc3, hc2, List.append_assoc]
      · rw [hreads1, hreads0, List.map_append, List.append_assoc]
      · refine ⟨onc.toList ++ cs1, ?_, ?_⟩
        · rw [matSpec]
          rw [show nodeFresh fs env pdir node = .ok onc from hfresh]
          simp only [bind, Except.bind]
          rw [hspec1]
        · rw [hchecks1, List.append_assoc]

/-- C7: under no template override, a run of `materialise_checks` that
completes (with every cached profile name a string, as profile names are)
reads each profile file at most once — the read list has no duplicates, one
read per newly cached name; every cache entry equals exactly what loading
its file yields (the per-node placeholder substitution never mutates the
cached structure); and the produced `NodeChecks` are exactly those of the
cache-free per-node rederivation, in which each node's own address is
substituted into a fresh copy of its profile. -/
theorem profile_cache_coherence (fs : String → Option YVal)
    (env : String → Option String) (invp pdir : String) (res : MatResult)
    (hok : materialise_checks fs env invp pdir none = .ok res)
    (hstr : ∀ q ∈ res.cache, ∃ s, q.1 = YVal.str s) :
    res.reads.Nodup
    ∧ res.reads = res.cache.map (fun q => profilePath pdir q.1)
    ∧ (∀ q ∈ res.cache, load_yaml fs env none (profilePath pdir q.1) = .ok q.2)
    ∧ (∃ ns, inventoryNodes fs env invp = .ok ns
        ∧ matSpec fs env pdir ns = .ok res.checks) := by
  unfold materialise_checks at hok
  simp only [bind, Except.bind] at hok
  match hli : load_yaml fs env none invp with
  | .error e => rw [hli] at hok; cases hok
  | .ok inventory =>
    rw [hli] at hok
    dsimp only at hok
    match inventory with
    | .null => exact absurd hok (by simp)
    | .bool b => exact absurd hok (by simp)
    | .num n => exact absurd hok (by simp)
    | .float q => exact absurd hok (by simp)
    | .str s => exact absurd hok (by simp)
    | .arr xs => exact absurd hok (by simp)
    | .obj fsv =>
      dsimp only at hok
      match hit : pyIterList ((alistGet fsv "nodes").getD (.arr [])) with
      | .error e => rw [hit] at hok; cases hok
      | .ok ns =>
        rw [hit] at hok
        dsimp only at hok
        match hml : matLoop fs env pdir none ns [] [] [] with
        | .error e => rw [hml] at hok; cases hok
        | .ok (checks, reads, cache) =>
          rw [hml] at hok
          dsimp only at hok
          have hres : res = ⟨checks, reads, cache⟩ := by
            cases hok
            rfl
          subst hres
          obtain ⟨hpr, hpw, ⟨added, hca, hrd⟩, cs, hspec, hchecks⟩ :=
            matLoop_pristine fs env pdir ns [] [] [] checks reads cache hml
              (fun q hq => absurd hq (List.not_mem_nil q)) List.Pairwise.nil
          rw [List.nil_append] at hca hchecks
          rw [List.nil_append] at hrd
          rw [← hca] at hrd
          refine ⟨?_, hrd, hpr, ns, ?_, ?_⟩
          · rw [hrd]
            have hne : cache.Pairwise
                (fun q r => profilePath pdir q.1 ≠ profilePath pdir r.1) := by
              refine List.Pairwise.imp_of_mem ?_ hpw
              intro a b ha hb hab
              obtain ⟨s1, hs1⟩ := hstr a ha
              obtain ⟨s2, hs2⟩ := hstr b hb
              rw [hs1, hs2] at hab ⊢
              rw [yBEq] at hab
              intro hpp
              rw [profilePath_inj hpp] at hab
              simp at hab
            exact List.Pairwise.map _ (fun a b h => h) hne
          · unfold inventoryNodes
            rw [hli]
            simp only [bind, Except.bind]
            rw [hit]
          · rw [hspec, hchecks]

/-- Closed instance of `profile_cache_coherence`: two nodes sharing profile
`default` produce one single file read (the second node hits the cache). -/
theorem profile_cache_coherence_witness :
    (["cfg/profiles/default.yml"] : List String).Nodup := by
  have h := profile_cache_coherence
    (fun q => if q = "cfg/nodes.yml" then
        some (.obj [("nodes", .arr [
          .obj [("name", .str "a"), ("address", .str "10.0.0.1")],
          .obj [("name", .str "b"), ("address", .str "10.0.0.2")]])])
      else if q = "cfg/profiles/default.yml" then
        some (.obj [
          ("ping", .arr [.obj [("host", .str "${ADDRESS}")]]),
          ("http", .arr [.obj [("name", .str "health"),
            ("url", .str "http://${ADDRESS}:8080/health"),
            ("expect_status", .num 200)]])])
      else none)
    (fun _ => none) "cfg/nodes.yml" "cfg/profiles"
    ⟨[⟨"a", [⟨"10.0.0.1", "10.0.0.1"⟩],
        [⟨"health", "GET", "http://10.0.0.1:8080/health", none, some 200, none⟩]⟩,
      ⟨"b", [⟨"10.0.0.2", "10.0.0.2"⟩],
        [⟨"health", "GET", "http://10.0.0.2:8080/health", none, some 200, none⟩]⟩],
     ["cfg/profiles/default.yml"],
     [(.str "default", .obj [
        ("ping", .arr [.obj [("host", .str "${ADDRESS}")]]),
        ("http", .arr [.obj [("name", .str "health"),
          ("url", .str "http://${ADDRESS}:8080/health"),
          ("expect_status", .num 200)]])])]⟩
    (by rfl)
    (by
      intro q hq
      rw [List.mem_singleton] at hq
      subst hq
      exact ⟨"default", rfl⟩)
  exact h.1

/-- An occurrence survives appending text on the right. -/
theorem contains_append_extend (ps l b : List Char)
    (h : listContainsSub ps l = true) : listContainsSub ps (l ++ b) = true := by
  induction l with
  | nil =>
    rw [listContainsSub] at h
    have hps : ps = [] := by
      cases ps with
      | nil => rfl
      | cons c cs => simp [List.isEmpty] at h
    subst hps
    induction b with
    | nil => rfl
    | cons c cs ih =>
      rw [List.nil_append, listContainsSub]
      rw [List.nil_append] at ih
      rw [ih]
      simp
  | cons c cs ih =>
    rw [List.cons_append, listContainsSub]
    rw [listContainsSub] at h
    simp only [Bool.or_eq_true] at h ⊢
    rcases h with h1 | h1
    · left
      rw [List.isPrefixOf_iff_prefix] at h1 ⊢
      have := h1.trans (List.prefix_append (c :: cs) b)
      rw [List.cons_append] at this
      exact this
    · right
      exact ih h1

/-- An occurrence survives prepending text on the left. -/
theorem contains_append_prepend (ps a l : List Char)
    (h : listContainsSub ps l = true) : listContainsSub ps (a ++ l) = true := by
  induction a with
  | nil => simpa using h
  | cons c cs ih =>
    rw [List.cons_append, listContainsSub, ih]
    simp

/-- An occurrence inside the stripped text is an occurrence in the full text
(`strip` only removes a prefix and a suffix). -/
theorem contains_stripChars {ps cs : List Char}
    (h : listContainsSub ps (stripChars cs) = true) :
    listContainsSub ps cs = true := by
  unfold stripChars at h
  obtain ⟨t1, ht1⟩ := @List.dropWhile_suffix Char cs isPySpace
  obtain ⟨t2, ht2⟩ :=
    @List.dropWhile_suffix Char (cs.dropWhile isPySpace).reverse isPySpace
  have hd : cs.dropWhile isPySpace
      = ((cs.dropWhile isPySpace).reverse.dropWhile isPySpace).reverse
        ++ t2.reverse := by
    have hrv := congrArg List.reverse ht2
    rw [List.reverse_append, List.reverse_reverse] at hrv
    exact hrv.symm
  have h1 := contains_append_extend ps _ t2.reverse h
  rw [← hd] at h1
  have h2 := contains_append_prepend ps t1 _ h1
  rw [ht1] at h2
  exact h2

/-- `Char.ofNat` is faithful on the digit range. -/
theorem charOfNat_digit_toNat {m : Nat} (hm : m < 10) :
    (Char.ofNat (48 + m)).toNat = 48 + m := by
  interval_cases m <;> rfl

/-- Every character `natCharsAux` emits is a decimal digit. -/
theorem natCharsAux_digits : ∀ (fuel n : Nat), ∀ c ∈ natCharsAux fuel n,
    48 ≤ c.toNat ∧ c.toNat ≤ 57 := by
  intro fuel
  induction fuel with
  | zero => intro n c hc; simp [natCharsAux] at hc
  | succ f ih =>
    intro n c hc
    rw [natCharsAux] at hc
    by_cases hn : n < 10
    · rw [if_pos hn] at hc
      rw [List.mem_singleton] at hc
      subst hc
      rw [charOfNat_digit_toNat hn]
      omega
    · rw [if_neg hn] at hc
      rcases List.mem_append.mp hc with hc | hc
      · exact ih _ c hc
      · rw [List.mem_singleton] at hc
        subst hc
        have h10 : n % 10 < 10 := Nat.mod_lt _ (by omega)
        rw [charOfNat_digit_toNat h10]
        omega

/-- A string without the dollar sign cannot contain the placeholder. -/
theorem patFree_of_no_dollar {s : String} (h : '$' ∉ s.data) : patFree s := by
  unfold patFree strContains
  by_contra hc
  rw [Bool.not_eq_false] at hc
  have hd : addressPlaceholder.data = '$' :: "{ADDRESS}".data := rfl
  rw [hd] at hc
  exact h (head_mem_of_contains hc)

/-- `str(i)` of an integer is digits (with at most a sign), hence
placeholder-free. -/
theorem intToStr_patFree (n : Int) : patFree (intToStr n) := by
  apply patFree_of_no_dollar
  intro hmem
  unfold intToStr at hmem
  by_cases hn : n < 0
  · rw [if_pos hn] at hmem
    have hmem' : '$' ∈ '-' :: natChars n.natAbs := hmem
    rcases List.mem_cons.mp hmem' with h1 | h1
    · exact absurd h1 (by decide)
    · rw [natChars] at h1
      have := natCharsAux_digits _ _ _ h1
      have h36 : ('$').toNat = 36 := rfl
      rw [h36] at this
      omega
  · rw [if_neg hn] at hmem
    have hmem' : '$' ∈ natChars n.toNat := hmem
    rw [natChars] at hmem'
    have := natCharsAux_digits _ _ _ hmem'
    have h36 : ('$').toNat = 36 := rfl
    rw [h36] at this
    omega

/-- `str(v)` of a document value whose strings are placeholder-free is
placeholder-free. -/
theorem pyStr_patFree {v : YVal} (hv : YAll patFree v) : patFree (pyStr v) := by
  cases v with
  | null => unfold patFree; decide
  | bool b => cases b <;> (unfold patFree; decide)
  | num n => exact intToStr_patFree n
  | float q => unfold patFree; rw [pyStr]; decide
  | str s => cases hv with | str _ h => exact h
  | arr xs => unfold patFree; rw [pyStr]; decide
  | obj fsv => unfold patFree; rw [pyStr]; decide

/-- Stripping preserves placeholder-freeness. -/
theorem stripStr_patFree {s : String} (h : patFree s) : patFree (stripStr s) := by
  unfold patFree strContains at h ⊢
  by_contra hc
  rw [Bool.not_eq_false] at hc
  have h1 : listContainsSub addressPlaceholder.data s.data = true :=
    contains_stripChars hc
  rw [h] at h1
  exact Bool.noConfusion h1

/-- `a or b` preserves any all-strings invariant. -/
theorem yall_pyOr {P : String → Prop} {a b : YVal} (ha : YAll P a)
    (hb : YAll P b) : YAll P (pyOr a b) := by
  unfold pyOr
  split
  · exact ha
  · exact hb

/-- `entry.get(k)` preserves any all-strings invariant. -/
theorem yall_yGetAttr {P : String → Prop} {entry : YVal} {k : String} {v : YVal}
    (he : YAll P entry) (h : yGetAttr entry k = .ok v) : YAll P v := by
  cases entry with
  | obj fsv =>
    simp only [yGetAttr, Except.ok.injEq] at h
    cases he with
    | obj _ hk hvv =>
      cases hg : alistGet fsv k with
      | none =>
        rw [hg] at h
        simp only [Option.getD_none] at h
        rw [← h]
        exact YAll.null
      | some w =>
        rw [hg] at h
        simp only [Option.getD_some] at h
        exact h ▸ yall_alistGet hvv hg
  | null => simp [yGetAttr] at h
  | bool b => simp [yGetAttr] at h
  | num n => simp [yGetAttr] at h
  | float q => simp [yGetAttr] at h
  | str s => simp [yGetAttr] at h
  | arr xs => simp [yGetAttr] at h

/-- A string extracted by `asOptStr` from an invariant-holding value holds
the invariant. -/
theorem yall_asOptStr {P : String → Prop} {v : YVal} {t : String}
    (hv : YAll P v) (h : asOptStr v = some t) : P t := by
  cases v with
  | str s =>
    simp only [asOptStr, Option.some.injEq] at h
    cases hv with | str _ hp => exact h ▸ hp
  | null => simp [asOptStr] at h
  | bool b => simp [asOptStr] at h
  | num n => simp [asOptStr] at h
  | float q => simp [asOptStr] at h
  | arr xs => simp [asOptStr] at h
  | obj fsv => simp [asOptStr] at h

/-- Iterating an invariant-holding value yields invariant-holding elements. -/
theorem yall_pyIterList {P : String → Prop} {v : YVal} {es : List YVal}
    (hv : YAll P v) (h : pyIterList v = .ok es) : ∀ e ∈ es, YAll P e := by
  cases v with
  | arr xs =>
    simp only [pyIterList, Except.ok.injEq] at h
    subst h
    cases hv with | arr _ hx => exact hx
  | str s =>
    simp only [pyIterList] at h
    split at h
    · simp only [Except.ok.injEq] at h
      subst h
      intro e he
      exact absurd he (List.not_mem_nil e)
    · cases h
  | obj fsv =>
    simp only [pyIterList] at h
    split at h
    · simp only [Except.ok.injEq] at h
      subst h
      intro e he
      exact absurd he (List.not_mem_nil e)
    · cases h
  | null => simp [pyIterList] at h
  | bool b => simp [pyIterList] at h
  | num n => simp [pyIterList] at h
  | float q => simp [pyIterList] at h

/-- A ping check built against a placeholder-free entry and address has
placeholder-free name and host. -/
theorem buildPing_patFree {ad : String} {e : YVal} {pc : PingCheck}
    (had : patFree ad) (he : YAll patFree e) (h : buildPing ad e = .ok pc) :
    patFree pc.name ∧ patFree pc.host := by
  unfold buildPing at h
  simp only [bind, Except.bind] at h
  match hn : yGetAttr e "name" with
  | .error err => rw [hn] at h; cases h
  | .ok nv =>
    rw [hn] at h
    dsimp only at h
    match hh : yGetAttr e "host" with
    | .error err => rw [hh] at h; cases h
    | .ok hv =>
      rw [hh] at h
      dsimp only at h
      simp only [Except.ok.injEq] at h
      subst h
      refine ⟨?_, ?_⟩
      · exact stripStr_patFree (pyStr_patFree (yall_pyOr (yall_yGetAttr he hn)
          (yall_pyOr (yall_yGetAttr he hh)
            (YAll.str _ (by unfold patFree; decide)))))
      · exact pyStr_patFree (yall_pyOr (yall_yGetAttr he hh) (YAll.str _ had))

/-- An HTTP check built against a placeholder-free entry, for a nonempty
address disjoint from the placeholder's characters, has placeholder-free
name, URL and expectation texts. -/
theorem buildHttp_patFree {ad : String} {e : YVal} {ohc : Option HttpCheck}
    (hadne : ad ≠ "") (hdisj : ∀ c ∈ ad.data, c ∉ addressPlaceholder.data)
    (he : YAll patFree e) (h : buildHttp ad e = .ok ohc) :
    ∀ hc, ohc = some hc →
      patFree hc.name ∧ patFree hc.url
      ∧ (∀ t, hc.expect_text = some t → patFree t)
      ∧ (∀ t, hc.accept_error_substring = some t → patFree t) := by
  unfold buildHttp at h
  simp only [bind, Except.bind] at h
  match hn : yGetAttr e "name" with
  | .error err => rw [hn] at h; cases h
  | .ok nv =>
    rw [hn] at h
    dsimp only at h
    match hu : yGetAttr e "url" with
    | .error err => rw [hu] at h; cases h
    | .ok uv =>
      rw [hu] at h
      dsimp only at h
      by_cases hurl : pyStr (pyOr uv (.str "")) = ""
      · rw [if_pos hurl] at h
        simp only [Except.ok.injEq] at h
        subst h
        intro hc hhc
        simp at hhc
      · rw [if_neg hurl] at h
        match hm : yGetAttr e "method" with
        | .error err => rw [hm] at h; cases h
        | .ok mv =>
          rw [hm] at h
          dsimp only at h
          match het : yGetAttr e "expect_text" with
          | .error err => rw [het] at h; cases h
          | .ok etv =>
            rw [het] at h
            dsimp only at h
            match hes : yGetAttr e "expect_status" with
            | .error err => rw [hes] at h; cases h
            | .ok esv =>
              rw [hes] at h
              dsimp only at h
              match haes : yGetAttr e "accept_error_substring" with
              | .error err => rw [haes] at h; cases h
              | .ok aesv =>
                rw [haes] at h
                dsimp only at h
                simp only [Except.ok.injEq] at h
                subst h
                intro hc hhc
                simp only [Option.some.injEq] at hhc
                subst hhc
                refine ⟨?_, ?_, ?_, ?_⟩
                · exact stripStr_patFree (pyStr_patFree (yall_pyOr
                    (yall_yGetAttr he hn) (yall_pyOr (yall_yGetAttr he hu)
                      (YAll.str _ (by unfold patFree; decide)))))
                · unfold patFree
                  exact substStr_no_residual addressPlaceholder ad _
                    (by decide) hadne hdisj
                · intro t ht
                  exact yall_asOptStr (yall_yGetAttr he het) ht
                · intro t ht
                  exact yall_asOptStr (yall_yGetAttr he haes) ht

/-- The ping loop propagates placeholder-freeness to every produced check. -/
theorem buildPings_patFree (ad : String) (es : List YVal) :
    ∀ (pcs : List PingCheck), patFree ad → (∀ e ∈ es, YAll patFree e) →
    buildPings ad es = .ok pcs →
    ∀ pc ∈ pcs, patFree pc.name ∧ patFree pc.host := by
  induction es with
  | nil =>
    intro pcs had hes h
    rw [buildPings] at h
    simp only [Except.ok.injEq] at h
    subst h
    intro pc hpc
    exact absurd hpc (List.not_mem_nil pc)
  | cons e rest ih =>
    intro pcs had hes h
    rw [buildPings] at h
    simp only [bind, Except.bind] at h
    match hp : buildPing ad e with
    | .error err => rw [hp] at h; cases h
    | .ok pc0 =>
      rw [hp] at h
      dsimp only at h
      match ht : buildPings ad rest with
      | .error err => rw [ht] at h; cases h
      | .ok tail =>
        rw [ht] at h
        dsimp only at h
        simp only [Except.ok.injEq] at h
        subst h
        intro pc hpc
        rcases List.mem_cons.mp hpc with h1 | h1
        · subst h1
          exact buildPing_patFree had (hes e (List.mem_cons_self _ _)) hp
        · exact ih tail had (fun x hx => hes x (List.mem_cons_of_mem _ hx)) ht pc h1

/-- The HTTP loop propagates placeholder-freeness to every produced check. -/
theorem buildHttps_patFree (ad : String) (es : List YVal) :
    ∀ (hcs : List HttpCheck), ad ≠ "" →
    (∀ c ∈ ad.data, c ∉ addressPlaceholder.data) →
    (∀ e ∈ es, YAll patFree e) → buildHttps ad es = .ok hcs →
    ∀ hc ∈ hcs, patFree hc.name ∧ patFree hc.url
      ∧ (∀ t, hc.expect_text = some t → patFree t)
      ∧ (∀ t, hc.accept_error_substring = some t → patFree t) := by
  induction es with
  | nil =>
    intro hcs hadne hdisj hes h
    rw [buildHttps] at h
    simp only [Except.ok.injEq] at h
    subst h
    intro hc hhc
    exact absurd hhc (List.not_mem_nil hc)
  | cons e rest ih =>
    intro hcs hadne hdisj hes h
    rw [buildHttps] at h
    simp only [bind, Except.bind] at h
    match hp : buildHttp ad e with
    | .error err => rw [hp] at h; cases h
    | .ok ohc0 =>
      rw [hp] at h
      dsimp only at h
      match ht : buildHttps ad rest with
      | .error err => rw [ht] at h; cases h
      | .ok tail =>
        rw [ht] at h
        dsimp only at h
        simp only [Except.ok.injEq] at h
        subst h
        intro hc hhc
        rcases List.mem_append.mp hhc with h1 | h1
        · have hsome : ohc0 = some hc := by
            cases ohc0 with
            | none => simp [Option.toList] at h1
            | some x =>
              simp only [Option.toList, List.mem_singleton] at h1
              subst h1
              rfl
          exact buildHttp_patFree hadne hdisj (hes e (List.mem_cons_self _ _))
            hp hc hsome
        · exact ih tail hadne hdisj
            (fun x hx => hes x (List.mem_cons_of_mem _ hx)) ht hc h1

/-- `buildNodeChecks` on a placeholder-free profile document yields
placeholder-free probe fields. -/
theorem buildNodeChecks_patFree {nn ad : String} {pd : YVal} {nc : NodeChecks}
    (hadne : ad ≠ "") (hdisj : ∀ c ∈ ad.data, c ∉ addressPlaceholder.data)
    (hpd : YAll patFree pd) (h : buildNodeChecks nn ad pd = .ok nc) :
    placeholderFreeChecks nc := by
  have had : patFree ad :=
    patFree_of_no_dollar (fun hm => hdisj '$' hm (by decide))
  cases pd with
  | obj fsv =>
    unfold buildNodeChecks at h
    simp only [bind, Except.bind] at h
    have hping : YAll patFree ((alistGet fsv "ping").getD (.arr [])) := by
      cases hv : hpd with
      | obj _ hk hvv =>
        cases hg : alistGet fsv "ping" with
        | none =>
          simp only [Option.getD_none]
          exact YAll.arr [] (fun x hx => absurd hx (List.not_mem_nil x))
        | some w =>
          simp only [Option.getD_some]
          exact yall_alistGet hvv hg
    have hhttp : YAll patFree ((alistGet fsv "http").getD (.arr [])) := by
      cases hv : hpd with
      | obj _ hk hvv =>
        cases hg : alistGet fsv "http" with
        | none =>
          simp only [Option.getD_none]
          exact YAll.arr [] (fun x hx => absurd hx (List.not_mem_nil x))
        | some w =>
          simp only [Option.getD_some]
          exact yall_alistGet hvv hg
    match hpi : pyIterList ((alistGet fsv "ping").getD (.arr [])) with
    | .error err => rw [hpi] at h; cases h
    | .ok pes =>
      rw [hpi] at h
      dsimp only at h
      match hbp : buildPings ad pes with
      | .error err => rw [hbp] at h; cases h
      | .ok pings =>
        rw [hbp] at h
        dsimp only at h
        match hhi : pyIterList ((alistGet fsv "http").getD (.arr [])) with
        | .error err => rw [hhi] at h; cases h
        | .ok hentries =>
          rw [hhi] at h
          dsimp only at h
          match hbh : buildHttps ad hentries with
          | .error err => rw [hbh] at h; cases h
          | .ok https =>
            rw [hbh] at h
            dsimp only at h
            simp only [Except.ok.injEq] at h
            subst h
            constructor
            · exact buildPings_patFree ad pes pings had
                (yall_pyIterList hping hpi) hbp
            · exact buildHttps_patFree ad hentries https hadne hdisj
                (yall_pyIterList hhttp hhi) hbh
  | null => simp [buildNodeChecks, bind, Except.bind] at h
  | bool b => simp [buildNodeChecks, bind, Except.bind] at h
  | num n => simp [buildNodeChecks, bind, Except.bind] at h
  | float q => simp [buildNodeChecks, bind, Except.bind] at h
  | str s => simp [buildNodeChecks, bind, Except.bind] at h
  | arr xs => simp [buildNodeChecks, bind, Except.bind] at h

/-- A node that is not skipped has a nonempty (stripped) address. -/
theorem nodeParams_addr {node : YVal} {nn ad : String} {pn : YVal}
    (h : nodeParams node = .ok (some (nn, ad, pn))) : ad ≠ "" := by
  unfold nodeParams at h
  simp only [bind, Except.bind] at h
  match h1 : yGetAttr node "name" with
  | .error e => rw [h1] at h; cases h
  | .ok nameV =>
    rw [h1] at h
    dsimp only at h
    match h2 : yGetAttr node "id" with
    | .error e => rw [h2] at h; cases h
    | .ok idV =>
      rw [h2] at h
      dsimp only at h
      match h3 : yGetAttr node "address" with
      | .error e => rw [h3] at h; cases h
      | .ok addrV =>
        rw [h3] at h
        dsimp only at h
        match h4 : yGetAttr node "host" with
        | .error e => rw [h4] at h; cases h
        | .ok hostV =>
          rw [h4] at h
          dsimp only at h
          split at h
          · exact absurd h (by simp)
          · rename_i hcond
            simp only [Except.ok.injEq, Option.some.injEq, Prod.mk.injEq] at h
            obtain ⟨hn, ha, hp⟩ := h
            rw [← ha]
            exact fun hbad => hcond (Or.inr hbad)

/-- A valid node materialised with a fresh (empty) cache yields exactly one
`NodeChecks`, whose probe fields are placeholder-free whenever the node's
address shares no character with the placeholder token. -/
theorem nodeFresh_patFree {fs : String → Option YVal}
    {env : String → Option String} {pdir : String} {node : YVal}
    {nn ad : String} {pn : YVal} {onc : Option NodeChecks}
    (hnp : nodeParams node = .ok (some (nn, ad, pn)))
    (hdisj : ∀ c ∈ ad.data, c ∉ addressPlaceholder.data)
    (h : nodeFresh fs env pdir node = .ok onc) :
    ∃ nc, onc = some nc ∧ placeholderFreeChecks nc := by
  have hadne : ad ≠ "" := nodeParams_addr hnp
  unfold nodeFresh processNode at h
  simp only [bind, Except.bind] at h
  rw [hnp] at h
  dsimp only at h
  rw [show namedProfileData fs env pdir [] pn ad
      = (match load_yaml fs env none (profilePath pdir pn) with
         | .error e => .error e
         | .ok raw => .ok (substYVal addressPlaceholder ad raw, [(pn, raw)],
             [profilePath pdir pn])) from by
    unfold namedProfileData
    rw [show cacheLookup [] pn = none from rfl]
    dsimp only
    cases load_yaml fs env none (profilePath pdir pn) with
    | error e => rfl
    | ok raw =>
      dsimp only
      rw [List.nil_append]] at h
  match hld : load_yaml fs env none (profilePath pdir pn) with
  | .error e =>
    rw [hld] at h
    dsimp only [Except.map] at h
    cases h
  | .ok raw =>
    rw [hld] at h
    dsimp only at h
    match hb : buildNodeChecks nn ad (substYVal addressPlaceholder ad raw) with
    | .error e =>
      rw [hb] at h
      dsimp only [Except.map] at h
      cases h
    | .ok nc =>
      rw [hb] at h
      dsimp only [Except.map] at h
      simp only [Except.ok.injEq] at h
      subst h
      have hpd : YAll patFree (substYVal addressPlaceholder ad raw) := by
        unfold substYVal
        exact yall_mapStrs patFree (substStr addressPlaceholder ad)
          (fun s => substStr_no_residual addressPlaceholder ad s
            (by decide) hadne hdisj) raw
      exact ⟨nc, rfl, buildNodeChecks_patFree hadne hdisj hpd hb⟩

/-- A completed cache-free materialisation processed every inventory node. -/
theorem matSpec_node_ok (fs : String → Option YVal)
    (env : String → Option String) (pdir : String) (ns : List YVal) :
    ∀ (cs : List NodeChecks), matSpec fs env pdir ns = .ok cs →
    ∀ node ∈ ns, ∃ onc, nodeFresh fs env pdir node = .ok onc := by
  induction ns with
  | nil =>
    intro cs h node hn
    exact absurd hn (List.not_mem_nil node)
  | cons x rest ih =>
    intro cs h node hn
    rw [matSpec] at h
    simp only [bind, Except.bind] at h
    match hx : nodeFresh fs env pdir x with
    | .error e => rw [hx] at h; cases h
    | .ok onc =>
      rw [hx] at h
      dsimp only at h
      match hr : matSpec fs env pdir rest with
      | .error e => rw [hr] at h; cases h
      | .ok tail =>
        rcases List.mem_cons.mp hn with h1 | h1
        · subst h1
          exact ⟨onc, hx⟩
        · exact ih tail hr node h1

/-- Every produced `NodeChecks` of a cache-free materialisation is the fresh
materialisation of some inventory node. -/
theorem matSpec_mem (fs : String → Option YVal)
    (env : String → Option String) (pdir : String) (ns : List YVal) :
    ∀ (cs : List NodeChecks), matSpec fs env pdir ns = .ok cs →
    ∀ nc ∈ cs, ∃ node ∈ ns, nodeFresh fs env pdir node = .ok (some nc) := by
  induction ns with
  | nil =>
    intro cs h nc hnc
    rw [matSpec] at h
    simp only [Except.ok.injEq] at h
    subst h
    exact absurd hnc (List.not_mem_nil nc)
  | cons x rest ih =>
    intro cs h nc hnc
    rw [matSpec] at h
    simp only [bind, Except.bind] at h
    match hx : nodeFresh fs env pdir x with
    | .error e => rw [hx] at h; cases h
    | .ok onc =>
      rw [hx] at h
      dsimp only at h
      match hr : matSpec fs env pdir rest with
      | .error e => rw [hr] at h; cases h
      | .ok tail =>
        rw [hr] at h
        dsimp only at h
        simp only [Except.ok.injEq] at h
        subst h
        rcases List.mem_append.mp hnc with h1 | h1
        · refine ⟨x, List.mem_cons_self _ _, ?_⟩
          cases onc with
          | none => simp [Option.toList] at h1
          | some y =>
            simp only [Option.toList, List.mem_singleton] at h1
            subst h1
            exact hx
        · obtain ⟨node, hmem, hfr⟩ := ih tail hr nc h1
          exact ⟨node, List.mem_cons_of_mem _ hmem, hfr⟩

/-- A fresh materialisation that produces a `NodeChecks` did not skip the
node: its parameters resolve to a name, an address and a profile. -/
theorem nodeFresh_some_params {fs : String → Option YVal}
    {env : String → Option String} {pdir : String} {node : YVal}
    {nc : NodeChecks} (h : nodeFresh fs env pdir node = .ok (some nc)) :
    ∃ nn ad pn, nodeParams node = .ok (some (nn, ad, pn)) := by
  unfold nodeFresh processNode at h
  simp only [bind, Except.bind] at h
  match hnp : nodeParams node with
  | .error e =>
    rw [hnp] at h
    dsimp only [Except.map] at h
    cases h
  | .ok none =>
    rw [hnp] at h
    dsimp only [Except.map] at h
    exact absurd h (by simp)
  | .ok (some (nn, ad, pn)) => exact ⟨nn, ad, pn, rfl⟩

/-- A completed run of `materialise_checks` produces exactly the checks of
the cache-free specification over the inventory's nodes. -/
theorem mat_to_spec {fs : String → Option YVal} {env : String → Option String}
    {invp pdir : String} {res : MatResult}
    (hok : materialise_checks fs env invp pdir none = .ok res) :
    ∃ ns, inventoryNodes fs env invp = .ok ns
      ∧ matSpec fs env pdir ns = .ok res.checks := by
  unfold materialise_checks at hok
  simp only [bind, Except.bind] at hok
  match hli : load_yaml fs env none invp with
  | .error e => rw [hli] at hok; cases hok
  | .ok inventory =>
    rw [hli] at hok
    dsimp only at hok
    match inventory with
    | .null => exact absurd hok (by simp)
    | .bool b => exact absurd hok (by simp)
    | .num n => exact absurd hok (by simp)
    | .float q => exact absurd hok (by simp)
    | .str s => exact absurd hok (by simp)
    | .arr xs => exact absurd hok (by simp)
    | .obj fsv =>
      dsimp only at hok
      match hit : pyIterList ((alistGet fsv "nodes").getD (.arr [])) with
      | .error e => rw [hit] at hok; cases hok
      | .ok ns =>
        rw [hit] at hok
        dsimp only at hok
        match hml : matLoop fs env pdir none ns [] [] [] with
        | .error e => rw [hml] at hok; cases hok
        | .ok (checks, reads, cache) =>
          rw [hml] at hok
          dsimp only at hok
          have hres : res = ⟨checks, reads, cache⟩ := by
            cases hok
            rfl
          subst hres
          obtain ⟨hpr, hpw, hadd, cs, hspec, hchecks⟩ :=
            matLoop_pristine fs env pdir ns [] [] [] checks reads cache hml
              (fun q hq => absurd hq (List.not_mem_nil q)) List.Pairwise.nil
          rw [List.nil_append] at hchecks
          refine ⟨ns, ?_, ?_⟩
          · unfold inventoryNodes
            rw [hli]
            simp only [bind, Except.bind]
            rw [hit]
          · rw [hspec, hchecks]

/-- C2 counterexample: with the process environment variable `ADDRESS` bound
(here to `10.9.9.9`), `load_yaml`'s environment-expansion pass consumes the
`${ADDRESS}` placeholders of a named profile before the per-node substitution
runs, so the produced probe host and URL carry the environment's value, not
the node's own declared address `10.0.0.5` — the substituted address differs
from the node's address, refuting the claim. -/
theorem env_address_poisons_substitution :
    materialise_checks fsC2 envPoison "cfg/nodes.yml" "cfg/profiles" none
      = .ok ⟨[⟨"edge-1", [⟨"gateway", "10.9.9.9"⟩],
          [⟨"health", "GET", "http://10.9.9.9/health", none, some 200, none⟩]⟩],
        ["cfg/profiles/default.yml"],
        [(.str "default", .obj
          [("ping", .arr [.obj [("name", .str "gateway"),
             ("host", .str "10.9.9.9")]]),
           ("http", .arr [.obj [("name", .str "health"),
             ("url", .str "http://10.9.9.9/health"),
             ("expect_status", .num 200)]])])]⟩
    ∧ substStr addressPlaceholder "10.0.0.5" "http://${ADDRESS}/health"
        = "http://10.0.0.5/health"
    ∧ ("http://10.9.9.9/health" : String) ≠ "http://10.0.0.5/health" := by
  refine ⟨rfl, rfl, by decide⟩

/-- C2 (amended): under no template override and with the environment not
interfering (each valid node's resolved address shares no character with the
placeholder token — in particular the placeholders themselves survive to the
substitution pass), a completed materialisation produces, per non-skipped
node, exactly one `NodeChecks`, built by substituting that node's own address
into its profile; and every probe string field handed to an executor — ping
name and host, HTTP name, URL, expected text and accepted error substring —
is free of residual placeholder text (the HTTP method, upper-cased after
substitution, is not covered). -/
theorem placeholder_substitution_total (fs : String → Option YVal)
    (env : String → Option String) (invp pdir : String) (res : MatResult)
    (ns : List YVal)
    (hok : materialise_checks fs env invp pdir none = .ok res)
    (hns : inventoryNodes fs env invp = .ok ns)
    (hdisj : ∀ node ∈ ns, ∀ nn ad pn,
      nodeParams node = .ok (some (nn, ad, pn)) →
      ∀ c ∈ ad.data, c ∉ addressPlaceholder.data) :
    matSpec fs env pdir ns = .ok res.checks
    ∧ (∀ node ∈ ns, ∀ nn ad pn,
        nodeParams node = .ok (some (nn, ad, pn)) →
        ∃ nc, nodeFresh fs env pdir node = .ok (some nc)
          ∧ placeholderFreeChecks nc)
    ∧ (∀ nc ∈ res.checks, placeholderFreeChecks nc) := by
  obtain ⟨ns', hns', hspec'⟩ := mat_to_spec hok
  have hnseq : ns' = ns := by
    rw [hns] at hns'
    simp only [Except.ok.injEq] at hns'
    exact hns'.symm
  subst hnseq
  refine ⟨hspec', ?_, ?_⟩
  · intro node hmem nn ad pn hnp
    obtain ⟨onc, hfr⟩ := matSpec_node_ok fs env pdir ns' res.checks hspec' node hmem
    obtain ⟨nc, honc, hfree⟩ :=
      nodeFresh_patFree hnp (hdisj node hmem nn ad pn hnp) hfr
    exact ⟨nc, honc ▸ hfr, hfree⟩
  · intro nc hnc
    obtain ⟨node, hmem, hfr⟩ := matSpec_mem fs env pdir ns' res.checks hspec' nc hnc
    obtain ⟨nn, ad, pn, hnp⟩ := nodeFresh_some_params hfr
    obtain ⟨nc', honc, hfree⟩ :=
      nodeFresh_patFree hnp (hdisj node hmem nn ad pn hnp) hfr
    have : nc' = nc := (Option.some.inj honc).symm
    exact this ▸ hfree

/-- Closed instance of `placeholder_substitution_total`: the `edge-1` node
with an empty process environment yields one `NodeChecks` whose probe fields
are placeholder-free. -/
theorem placeholder_substitution_total_witness :
    placeholderFreeChecks
      ⟨"edge-1", [⟨"gateway", "10.0.0.5"⟩],
       [⟨"health", "GET", "http://10.0.0.5/health", none, some 200, none⟩]⟩ := by
  have h := placeholder_substitution_total fsC2 (fun _ => none)
    "cfg/nodes.yml" "cfg/profiles"
    ⟨[⟨"edge-1", [⟨"gateway", "10.0.0.5"⟩],
       [⟨"health", "GET", "http://10.0.0.5/health", none, some 200, none⟩]⟩],
      ["cfg/profiles/default.yml"],
      [(.str "default", .obj
        [("ping", .arr [.obj [("name", .str "gateway"),
           ("host", .str "${ADDRESS}")]]),
         ("http", .arr [.obj [("name", .str "health"),
           ("url", .str "http://${ADDRESS}/health"),
           ("expect_status", .num 200)]])])]⟩
    [.obj [("name", .str "edge-1"), ("address", .str "10.0.0.5")]]
    rfl rfl
    (by
      intro node hmem nn ad pn hnp c hc
      rw [List.mem_singleton] at hmem
      subst hmem
      rw [show nodeParams (YVal.obj [("name", .str "edge-1"),
            ("address", .str "10.0.0.5")])
          = .ok (some ("edge-1", "10.0.0.5", .str "default")) from rfl] at hnp
      simp only [Except.ok.injEq, Option.some.injEq, Prod.mk.injEq] at hnp
      obtain ⟨h1, h2, h3⟩ := hnp
      rw [← h2] at hc
      revert hc
      revert c
      decide)
  exact h.2.2 _ (List.mem_singleton.mpr rfl)
